import Mathlib

/-!
Verification of the TaskPaper parser (`src/taskpaper.py`).

Lines are modelled as `List Char`. Python string primitives (`strip`,
`split`, slicing) are embedded as explicit list functions; the parser's
mutable object graph (nodes with `parent` back-references plus the
`last` cursor of `parse_taskpaper_from_file`) is embedded as a forest of
inductive trees together with a cursor path, and the attribute error that
Python raises when the climb steps onto the `TaskPaper` object (which has
no `tabs` attribute) is modelled by `Option`: `none` is a raised error.
-/

/-- The whitespace characters stripped by Python's `str.strip()`. -/
def pySpace (c : Char) : Bool :=
  c = ' ' || c = '\t' || c = '\n' || c = '\r' || c = '\x0b' || c = '\x0c'

/-- Python `str.lstrip()`. -/
def lstripP (l : List Char) : List Char := l.dropWhile pySpace

/-- Python `str.rstrip()`. -/
def rstripP (l : List Char) : List Char := (l.reverse.dropWhile pySpace).reverse

/-- Python `str.strip()`. -/
def strip (l : List Char) : List Char := rstripP (lstripP l)

/-- Python `str.split(c)` for a one-character separator: keeps empty
segments, `"".split(c) = [""]`. -/
def pySplit (c : Char) : List Char → List (List Char)
  | [] => [[]]
  | x :: xs =>
    let r := pySplit c xs
    if x = c then [] :: r
    else
      match r with
      | [] => [[x]]
      | s :: rest => (x :: s) :: rest

/-- `n` tab characters. -/
def tabRep (n : Nat) : List Char := List.replicate n '\t'

/-- `Node.__init__`: `self.tabs = len(line) - len(line.lstrip('\t'))`. -/
def countTabs (l : List Char) : Nat :=
  l.length - (l.dropWhile (fun c => c = '\t')).length

/-- `line.strip().startswith("- ")`. -/
def startsDash : List Char → Bool
  | '-' :: ' ' :: _ => true
  | _ => false

/-- `line.strip().endswith(":")`. -/
def endsColon (l : List Char) : Bool :=
  match l.reverse with
  | ':' :: _ => true
  | _ => false

/-- The three node classes of the source (`ProjectNode`, `TaskNode`,
`NoteNode`). -/
inductive NodeKind : Type where
  | project : NodeKind
  | task : NodeKind
  | note : NodeKind
deriving DecidableEq, Repr

/-- The data stored on one parsed node: `tabs`, the stripped `line`,
the extracted `name`, and the tags (a dict for tasks, raw `@`-segments
for projects and notes, mirroring the source's asymmetry). -/
structure NodeData : Type where
  kind : NodeKind
  tabs : Nat
  line : List Char
  name : List Char
  taskTags : List (List Char × Option (List Char))
  rawTags : List (List Char)
deriving DecidableEq, Repr

/-- `TaskNode._parse_tag`: strip the segment, split on `"("`; the value is
`s[1][:-1]` when the split has exactly two parts, else `None`. -/
def parse_tag (seg : List Char) : List Char × Option (List Char) :=
  match pySplit '(' (strip seg) with
  | [a, b] => (a, some b.dropLast)
  | a :: _ => (a, none)
  | [] => ([], none)

/-- Python dict assignment `d[k] = v` on an association list: overwrite in
place if the key is present, else append. -/
def dictInsert (d : List (List Char × Option (List Char))) (k : List Char)
    (v : Option (List Char)) : List (List Char × Option (List Char)) :=
  match d with
  | [] => [(k, v)]
  | (k', v') :: rest => if k' = k then (k, v) :: rest else (k', v') :: dictInsert rest k v

/-- `TaskNode._parse_tags`: build the tag dict from the `@`-segments. -/
def parse_tags (segs : List (List Char)) : List (List Char × Option (List Char)) :=
  segs.foldl (fun d s => dictInsert d (parse_tag s).1 (parse_tag s).2) []

/-- Python `tag_name in node.tags.keys()`. -/
def hasKey (d : List (List Char × Option (List Char))) (k : List Char) : Bool :=
  d.any (fun p => p.1 == k)

/-- Dict lookup, for stating tag-mapping equality. -/
def tagLookup (d : List (List Char × Option (List Char))) (k : List Char) :
    Option (Option (List Char)) :=
  match d with
  | [] => none
  | (k', v) :: rest => if k' = k then some v else tagLookup rest k

/-- Line classification and node construction, from the loop head of
`parse_taskpaper_from_file` plus the `_parse` method of the chosen class:
task lines start with `"- "`, otherwise a trailing `":"` makes a project,
otherwise any non-blank line is a note; blank lines produce no node. -/
def mk_node (raw : List Char) : Option NodeData :=
  let t := strip raw
  let tb := countTabs raw
  if startsDash t then
    let tokens := pySplit '@' (strip t)
    some { kind := .task, tabs := tb, line := t,
           name := strip ((tokens.headD []).drop 2),
           taskTags := parse_tags tokens.tail, rawTags := [] }
  else if endsColon t then
    let tokens := pySplit '@' (strip t)
    some { kind := .project, tabs := tb, line := t,
           name := strip (tokens.headD []).dropLast,
           taskTags := [], rawTags := tokens.tail }
  else if t ≠ [] then
    let tokens := pySplit '@' (strip t)
    some { kind := .note, tabs := tb, line := t,
           name := strip (tokens.headD []),
           taskTags := [], rawTags := tokens.tail }
  else none

/-- `TaskNode.__str__` tag rendering: `'@%s(%s)' % (t[0], t[1]) if t[1]
else "@%s" % t[0]` — a `None` or empty value renders as a bare `@name`. -/
def renderTag (p : List Char × Option (List Char)) : List Char :=
  match p.2 with
  | some v => if v = [] then '@' :: p.1 else '@' :: (p.1 ++ '(' :: (v ++ [')']))
  | none => '@' :: p.1

/-- Python `' '.join(strings)`. -/
def joinSp : List (List Char) → List Char
  | [] => []
  | [x] => x
  | x :: rest => x ++ ' ' :: joinSp rest

/-- `Node.__str__` / `TaskNode.__str__`: a task line is rebuilt as
`tabs`, `"- "`, the name, a space, and the space-joined tags; any other
node is its tabs followed by its stored stripped line. -/
def renderNode (nd : NodeData) : List Char :=
  match nd.kind with
  | .task =>
      tabRep nd.tabs ++ ('-' :: ' ' :: nd.name) ++
        ' ' :: joinSp (nd.taskTags.map renderTag)
  | _ => tabRep nd.tabs ++ nd.line

/-- The tree of nodes: each node owns its ordered children
(`Node.children`); `parent` back-references are implicit in the paths
used by the builder below. -/
inductive NTree : Type where
  | node : NodeData → List NTree → NTree

/-- Data of a tree's root node. -/
def NTree.data : NTree → NodeData
  | .node d _ => d

/-- Children of a tree's root node. -/
def NTree.kids : NTree → List NTree
  | .node _ cs => cs

/-- Node data at a (nonempty) path into a forest; `none` if the path does
not resolve. A path lists child indices from the root sequence down. -/
def getAt : List NTree → List Nat → Option NodeData
  | _, [] => none
  | f, i :: p =>
    match f.get? i with
    | some (.node d cs) =>
      match p with
      | [] => some d
      | _ :: _ => getAt cs p
    | none => none

/-- Append a new tree as last child of the node at `p` (`p = []` appends
to the root sequence); also returns the index the child received. -/
def appendAt : List NTree → List Nat → NTree → Option (List NTree × Nat)
  | f, [], t => some (f ++ [t], f.length)
  | f, i :: p, t =>
    match f.get? i with
    | some (.node d cs) =>
      match appendAt cs p t with
      | some (cs', j) => some (f.set i (.node d cs'), j)
      | none => none
    | none => none

/-- One loop of the climb `while node.tabs < last.tabs: last =
last.parent`, with explicit fuel (each iteration shortens the path by
exactly one, so fuel equal to the path length never runs out).  When the
walk steps onto the `TaskPaper` object (empty path) the loop guard reads
`last.tabs`, which that object does not have: Python raises
`AttributeError`, modelled as `none`. -/
def climbFuel (f : List NTree) (nt : Nat) : Nat → List Nat → Option (List Nat)
  | _, [] => none
  | 0, _ :: _ => none
  | k + 1, i :: p =>
    match getAt f (i :: p) with
    | some d =>
      if nt < d.tabs then climbFuel f nt k (i :: p).dropLast else some (i :: p)
    | none => none

/-- The climb, started with sufficient fuel. -/
def climb (f : List NTree) (nt : Nat) (p : List Nat) : Option (List Nat) :=
  climbFuel f nt p.length p

/-- Builder state: the document's root children plus the path of the
`last` cursor (the most recently attached non-note node), `none` before
any non-note node has been attached. -/
structure PState : Type where
  roots : List NTree
  lastP : Option (List Nat)

/-- One iteration of the loop body of `parse_taskpaper_from_file` on an
already-constructed node. -/
def stepNode (st : PState) (nd : NodeData) : Option PState :=
  let rootAttach : PState :=
    ⟨st.roots ++ [.node nd []],
     if nd.kind = .note then st.lastP else some [st.roots.length]⟩
  match st.lastP with
  | some p =>
    if nd.tabs ≠ 0 then
      match getAt st.roots p with
      | none => none
      | some lastD =>
        if nd.tabs > lastD.tabs ∨ nd.kind = .note then
          match appendAt st.roots p (.node nd []) with
          | none => none
          | some (f, j) =>
            some ⟨f, if nd.kind = .note then some p else some (p ++ [j])⟩
        else
          match climb st.roots nd.tabs p with
          | none => none
          | some p' =>
            match appendAt st.roots p'.dropLast (.node nd []) with
            | none => none
            | some (f, j) => some ⟨f, some (p'.dropLast ++ [j])⟩
    else rootAttach
  | none => rootAttach

/-- The full loop of `parse_taskpaper_from_file` over the input lines. -/
def runLines : PState → List (List Char) → Option PState
  | st, [] => some st
  | st, l :: ls =>
    match mk_node l with
    | none => runLines st ls
    | some nd =>
      match stepNode st nd with
      | none => none
      | some st' => runLines st' ls

/-- `parse_taskpaper_from_file` on a list of lines, starting from an
empty document with `last = None`. -/
def parse_taskpaper (ls : List (List Char)) : Option PState :=
  runLines ⟨[], none⟩ ls

/-- Depth-first, document-order listing of all node data in a forest. -/
def dfsForest : List NTree → List NodeData
  | [] => []
  | .node d cs :: rest => d :: (dfsForest cs ++ dfsForest rest)

/-- `TaskPaper.filter_by_tag`'s recursive helper `filter_nodes`: for each
node in order, keep it if it is a task whose tag dict has the key, then
descend into its children. -/
def filter_by_tag (tag : List Char) : List NTree → List NodeData
  | [] => []
  | .node d cs :: rest =>
    (if d.kind = NodeKind.task ∧ hasKey d.taskTags tag then [d] else []) ++
      (filter_by_tag tag cs ++ filter_by_tag tag rest)

/-! ### Basic facts about the string primitives -/

theorem pySplit_ne_nil (c : Char) (l : List Char) : pySplit c l ≠ [] := by
  cases l with
  | nil => simp [pySplit]
  | cons x xs =>
    simp only [pySplit]
    split
    · simp
    · cases h : pySplit c xs <;> simp

theorem pySplit_cons_self (c : Char) (ys : List Char) :
    pySplit c (c :: ys) = [] :: pySplit c ys := by
  simp [pySplit]

theorem pySplit_append {c : Char} {xs : List Char} (ys : List Char) (h : c ∉ xs) :
    pySplit c (xs ++ ys) = (xs ++ (pySplit c ys).headD []) :: (pySplit c ys).tail := by
  induction xs with
  | nil =>
    cases hy : pySplit c ys with
    | nil => exact absurd hy (pySplit_ne_nil c ys)
    | cons a t => simp [hy]
  | cons x xs ih =>
    have hx : x ≠ c := fun hxc => h (hxc ▸ List.mem_cons_self x xs)
    have h' : c ∉ xs := fun hc => h (List.mem_cons_of_mem x hc)
    simp only [List.cons_append, pySplit, if_neg hx]
    rw [show xs.append ys = xs ++ ys from rfl, ih h']

theorem pySplit_of_not_mem {c : Char} {l : List Char} (h : c ∉ l) :
    pySplit c l = [l] := by
  have := pySplit_append (c := c) [] h
  simpa [pySplit] using this

theorem pySplit_headD (c : Char) (l : List Char) :
    (pySplit c l).headD [] = l.takeWhile (fun a => a ≠ c) := by
  induction l with
  | nil => simp [pySplit]
  | cons x xs ih =>
    by_cases hx : x = c
    · subst hx
      simp [pySplit_cons_self, List.takeWhile_cons]
    · simp only [pySplit, if_neg hx]
      cases h : pySplit c xs with
      | nil => exact absurd h (pySplit_ne_nil c xs)
      | cons s rest =>
        rw [h] at ih
        simp only [List.headD] at ih
        simp [List.takeWhile_cons, hx, ih]

theorem pySplit_mem_mem (c : Char) (l : List Char) :
    ∀ x ∈ pySplit c l, ∀ a ∈ x, a ∈ l := by
  induction l with
  | nil =>
    intro x hx a ha
    simp [pySplit] at hx
    subst hx
    exact absurd ha (List.not_mem_nil a)
  | cons y ys ih =>
    intro x hx a ha
    by_cases hy : y = c
    · subst hy
      rw [pySplit_cons_self] at hx
      rcases List.mem_cons.mp hx with hx | hx
      · subst hx
        exact absurd ha (List.not_mem_nil a)
      · exact List.mem_cons_of_mem _ (ih x hx a ha)
    · simp only [pySplit, if_neg hy] at hx
      cases h : pySplit c ys with
      | nil => exact absurd h (pySplit_ne_nil c ys)
      | cons s rest =>
        rw [h] at hx
        rcases List.mem_cons.mp hx with hx | hx
        · subst hx
          rcases List.mem_cons.mp ha with ha | ha
          · subst ha
            exact List.mem_cons_self _ _
          · exact List.mem_cons_of_mem _ (ih s (h ▸ List.mem_cons_self s rest) a ha)
        · exact List.mem_cons_of_mem _ (ih x (h ▸ List.mem_cons_of_mem s hx) a ha)

theorem pySplit_delim_not_mem (c : Char) (l : List Char) :
    ∀ x ∈ pySplit c l, c ∉ x := by
  induction l with
  | nil =>
    intro x hx
    simp [pySplit] at hx
    subst hx
    exact List.not_mem_nil c
  | cons y ys ih =>
    intro x hx
    by_cases hy : y = c
    · subst hy
      rw [pySplit_cons_self] at hx
      rcases List.mem_cons.mp hx with hx | hx
      · subst hx; exact List.not_mem_nil _
      · exact ih x hx
    · simp only [pySplit, if_neg hy] at hx
      cases h : pySplit c ys with
      | nil => exact absurd h (pySplit_ne_nil c ys)
      | cons s rest =>
        rw [h] at hx
        rcases List.mem_cons.mp hx with hx | hx
        · subst hx
          intro hc
          rcases List.mem_cons.mp hc with hc | hc
          · exact hy hc.symm
          · exact ih s (h ▸ List.mem_cons_self s rest) hc
        · exact ih x (h ▸ List.mem_cons_of_mem s hx)

theorem pySplit_length (c : Char) (l : List Char) :
    (pySplit c l).length = l.count c + 1 := by
  induction l with
  | nil => simp [pySplit]
  | cons x xs ih =>
    by_cases hx : x = c
    · subst hx
      simp [pySplit_cons_self, ih, List.count_cons]
    · simp only [pySplit, if_neg hx]
      cases h : pySplit c xs with
      | nil => exact absurd h (pySplit_ne_nil c xs)
      | cons s rest =>
        rw [h] at ih
        simp only [List.length_cons] at ih ⊢
        simp [List.count_cons, hx, ← ih]

theorem lstrip_cons_space {x : Char} (h : pySpace x = true) (l : List Char) :
    lstripP (x :: l) = lstripP l := by
  unfold lstripP
  rw [List.dropWhile_cons, if_pos h]

theorem lstrip_cons_clean {x : Char} (h : pySpace x = false) (l : List Char) :
    lstripP (x :: l) = x :: l := by
  unfold lstripP
  rw [List.dropWhile_cons, if_neg (by simp [h])]

theorem lstrip_head_not_space {x : Char} {rest : List Char}
    (h : lstripP (x :: rest) = x :: rest) : pySpace x = false := by
  cases hxx : pySpace x with
  | false => rfl
  | true =>
    exfalso
    have h1 : lstripP rest = x :: rest := (lstrip_cons_space hxx rest).symm.trans h
    have h2 : (lstripP rest).length ≤ rest.length :=
      (List.dropWhile_sublist pySpace).length_le
    rw [h1] at h2
    simp at h2

theorem lstrip_idem (l : List Char) : lstripP (lstripP l) = lstripP l :=
  List.dropWhile_idempotent pySpace l

theorem rstrip_idem (l : List Char) : rstripP (rstripP l) = rstripP l := by
  unfold rstripP
  rw [List.reverse_reverse, List.dropWhile_idempotent]

theorem lstrip_tabRep (t : Nat) (l : List Char) :
    lstripP (tabRep t ++ l) = lstripP l := by
  induction t with
  | zero => simp [tabRep]
  | succ n ih =>
    rw [tabRep, List.replicate_succ, List.cons_append,
      lstrip_cons_space (by decide)]
    exact ih

theorem rstrip_concat_clean {x : Char} (h : pySpace x = false) (l : List Char) :
    rstripP (l ++ [x]) = l ++ [x] := by
  unfold rstripP
  rw [List.reverse_append]
  simp only [List.reverse_cons, List.reverse_nil, List.nil_append, List.singleton_append]
  rw [List.dropWhile_cons, if_neg (by simp [h])]
  simp

theorem rstrip_append_spaces {pad : List Char} (h : ∀ c ∈ pad, pySpace c = true)
    (l : List Char) : rstripP (l ++ pad) = rstripP l := by
  unfold rstripP
  rw [List.reverse_append, List.dropWhile_append]
  have hp : List.dropWhile pySpace pad.reverse = [] :=
    List.dropWhile_eq_nil_iff.mpr (fun x hx => h x (List.mem_reverse.mp hx))
  simp [hp]

theorem lstrip_clean_of_rstrip {l : List Char} (h : lstripP l = l) :
    lstripP (rstripP l) = rstripP l := by
  cases l with
  | nil => simp [rstripP, lstripP]
  | cons x rest =>
    have hx : pySpace x = false := lstrip_head_not_space h
    unfold rstripP
    rw [List.reverse_cons, List.dropWhile_append]
    by_cases he : (List.dropWhile pySpace rest.reverse).isEmpty = true
    · rw [if_pos he]
      rw [List.dropWhile_cons]
      simp only [if_neg (by simp [hx] : ¬ pySpace x = true), List.dropWhile_nil]
      simp [lstrip_cons_clean hx]
    · rw [if_neg he]
      rw [List.reverse_append]
      simp only [List.reverse_cons, List.reverse_nil, List.nil_append, List.singleton_append]
      exact lstrip_cons_clean hx _

theorem strip_clean {l : List Char} (h1 : lstripP l = l) (h2 : rstripP l = l) :
    strip l = l := by
  unfold strip
  rw [h1, h2]

theorem lstrip_strip (l : List Char) : lstripP (strip l) = strip l := by
  unfold strip
  exact lstrip_clean_of_rstrip (lstrip_idem l)

theorem rstrip_strip (l : List Char) : rstripP (strip l) = strip l := rstrip_idem _

theorem strip_idem (l : List Char) : strip (strip l) = strip l :=
  strip_clean (lstrip_strip l) (rstrip_strip l)

theorem mem_strip {a : Char} {l : List Char} (h : a ∈ strip l) : a ∈ l := by
  unfold strip rstripP at h
  have h1 : a ∈ lstripP l :=
    List.mem_reverse.mp
      (List.Sublist.mem (List.mem_reverse.mp h) (List.dropWhile_sublist _))
  exact List.Sublist.mem h1 (List.dropWhile_sublist _)

theorem all_space_of_strip_eq_nil {l : List Char} (h : strip l = []) :
    ∀ c ∈ l, pySpace c = true := by
  unfold strip rstripP at h
  rw [List.reverse_eq_nil_iff] at h
  have h2 : ∀ c ∈ (lstripP l).reverse, pySpace c = true := List.dropWhile_eq_nil_iff.mp h
  have h3 : ∀ c ∈ lstripP l, pySpace c = true := fun c hc => h2 c (List.mem_reverse.mpr hc)
  intro c hc
  rw [← List.takeWhile_append_dropWhile pySpace l] at hc
  rcases List.mem_append.mp hc with hc | hc
  · exact List.mem_takeWhile_imp hc
  · exact h3 c hc

theorem dropTab_tabRep (t : Nat) (l : List Char) :
    (tabRep t ++ l).dropWhile (fun c => c = '\t') = l.dropWhile (fun c => c = '\t') := by
  induction t with
  | zero => simp [tabRep]
  | succ n ih =>
    rw [tabRep, List.replicate_succ, List.cons_append, List.dropWhile_cons]
    simp only [decide_True, if_true]
    exact ih

theorem dropTab_clean {body : List Char} (h : lstripP body = body) :
    body.dropWhile (fun c => c = '\t') = body := by
  cases body with
  | nil => rfl
  | cons x rest =>
    have hx : pySpace x = false := lstrip_head_not_space h
    have hxt : x ≠ '\t' := by
      intro hc
      rw [hc] at hx
      exact absurd hx (by decide)
    rw [List.dropWhile_cons, if_neg (by simp [hxt])]

theorem countTabs_tabRep {body : List Char} (t : Nat) (h : lstripP body = body) :
    countTabs (tabRep t ++ body) = t := by
  unfold countTabs
  rw [dropTab_tabRep, dropTab_clean h, List.length_append, tabRep, List.length_replicate]
  omega

theorem strip_tabRep_clean {body : List Char} (t : Nat)
    (h1 : lstripP body = body) (h2 : rstripP body = body) :
    strip (tabRep t ++ body) = body := by
  unfold strip
  rw [lstrip_tabRep, h1, h2]

/-! ### Claims C6 and C5: line classification and name derivation -/

/-- Claim C6: classification is decided in the exact priority order Task,
then Project, then Note: a trimmed line starting with `"- "` is a task
even if it also ends with `":"`; a non-task trimmed line ending with `":"`
is a project; any other non-blank trimmed line is a note; a line that is
empty after trimming produces no node at all. -/
theorem claim_C6_classification (line : List Char) :
    (startsDash (strip line) = true →
      (mk_node line).map NodeData.kind = some NodeKind.task)
    ∧ (startsDash (strip line) = false → endsColon (strip line) = true →
      (mk_node line).map NodeData.kind = some NodeKind.project)
    ∧ (startsDash (strip line) = false → endsColon (strip line) = false →
      strip line ≠ [] → (mk_node line).map NodeData.kind = some NodeKind.note)
    ∧ (strip line = [] → mk_node line = none) := by
  refine ⟨?_, ?_, ?_, ?_⟩
  · intro h
    simp [mk_node, h]
  · intro h1 h2
    simp [mk_node, h1, h2]
  · intro h1 h2 h3
    simp [mk_node, h1, h2, h3]
  · intro h
    simp [mk_node, h, startsDash, endsColon]

/-- Witness for C6: the four cases at concrete lines `"- a:"` (a task even
though it ends with a colon), `"P:"`, `"n"`, and the blank line `" "`. -/
theorem claim_C6_classification_witness :
    ((mk_node ['-', ' ', 'a', ':']).map NodeData.kind = some NodeKind.task)
    ∧ ((mk_node ['P', ':']).map NodeData.kind = some NodeKind.project)
    ∧ ((mk_node ['n']).map NodeData.kind = some NodeKind.note)
    ∧ (mk_node [' '] = none) :=
  ⟨(claim_C6_classification ['-', ' ', 'a', ':']).1 (by decide),
   (claim_C6_classification ['P', ':']).2.1 (by decide) (by decide),
   (claim_C6_classification ['n']).2.2.1 (by decide) (by decide) (by decide),
   (claim_C6_classification [' ']).2.2.2 (by decide)⟩

/-- The project name predicted by claim C5's words: the body with its
terminating colon removed, then trimmed of surrounding whitespace. -/
def specProjectName (body : List Char) : List Char :=
  strip (if endsColon (rstripP body) then (rstripP body).dropLast else rstripP body)

/-- Claim C5 counterexample: on the project line `"P: @t:"` the body (text
before the first `@`) is `"P: "`; the code stores the name `"P:"` — the
terminating colon is **not** removed — while the claim predicts `"P"`. -/
theorem claim_C5_counterexample :
    (mk_node ['P', ':', ' ', '@', 't', ':']).map NodeData.name = some ['P', ':']
    ∧ specProjectName
        ((strip ['P', ':', ' ', '@', 't', ':']).takeWhile (fun a => a ≠ '@')) = ['P']
    ∧ (['P', ':'] : List Char) ≠ ['P'] :=
  ⟨by rfl, by rfl, by decide⟩

/-- Claim C5 (amended): with the body the text before the first `@` of the
trimmed line — a task's name is the body with its first two characters
(the `"- "` prefix) removed, then trimmed; a project's name is the body
with its final character removed (that character is the terminating colon
only when no `@`-segment follows; otherwise it can be whitespace and the
colon remains), then trimmed; a note's name is the body, trimmed. -/
theorem claim_C5_names (line : List Char) (nd : NodeData)
    (h : mk_node line = some nd) :
    (nd.kind = NodeKind.task →
      nd.name = strip (((strip line).takeWhile (fun a => a ≠ '@')).drop 2))
    ∧ (nd.kind = NodeKind.project →
      nd.name = strip ((strip line).takeWhile (fun a => a ≠ '@')).dropLast)
    ∧ (nd.kind = NodeKind.note →
      nd.name = strip ((strip line).takeWhile (fun a => a ≠ '@'))) := by
  simp only [mk_node] at h
  split at h
  · rw [Option.some.injEq] at h
    subst h
    refine ⟨fun _ => ?_, fun hk => by simp at hk, fun hk => by simp at hk⟩
    rw [strip_idem, pySplit_headD]
  · split at h
    · rw [Option.some.injEq] at h
      subst h
      refine ⟨fun hk => by simp at hk, fun _ => ?_, fun hk => by simp at hk⟩
      rw [strip_idem, pySplit_headD]
    · split at h
      · rw [Option.some.injEq] at h
        subst h
        refine ⟨fun hk => by simp at hk, fun hk => by simp at hk, fun _ => ?_⟩
        rw [strip_idem, pySplit_headD]
      · exact absurd h (by simp)

/-- Witness for C5 (amended): the three variants at the concrete lines
`"- T @x"`, `"P: @t:"` and `"a note"`. -/
theorem claim_C5_names_witness :
    (['T'] : List Char) = strip (((strip ['-', ' ', 'T', ' ', '@', 'x']).takeWhile
      (fun a => a ≠ '@')).drop 2)
    ∧ (['P', ':'] : List Char) = strip
      ((strip ['P', ':', ' ', '@', 't', ':']).takeWhile (fun a => a ≠ '@')).dropLast
    ∧ (['a', ' ', 'n', 'o', 't', 'e'] : List Char) = strip
      ((strip ['a', ' ', 'n', 'o', 't', 'e']).takeWhile (fun a => a ≠ '@')) :=
  ⟨(claim_C5_names ['-', ' ', 'T', ' ', '@', 'x'] _ rfl).1 rfl,
   (claim_C5_names ['P', ':', ' ', '@', 't', ':'] _ rfl).2.1 rfl,
   (claim_C5_names ['a', ' ', 'n', 'o', 't', 'e'] _ rfl).2.2 rfl⟩

/-! ### Claim C3: tag-segment splitting -/

theorem takeWhile_ne_of_not_mem {c : Char} {l : List Char} (h : c ∉ l) :
    l.takeWhile (fun a => a ≠ c) = l := by
  induction l with
  | nil => rfl
  | cons x xs ih =>
    have hx : x ≠ c := fun hc => h (hc ▸ List.mem_cons_self x xs)
    rw [List.takeWhile_cons, if_pos (by simp [hx]),
      ih (fun hc => h (List.mem_cons_of_mem x hc))]

theorem dropWhile_ne_of_mem {c : Char} {l : List Char} (h : c ∈ l) :
    ∃ b, l.dropWhile (fun a => a ≠ c) = c :: b := by
  induction l with
  | nil => exact absurd h (List.not_mem_nil c)
  | cons x xs ih =>
    by_cases hx : x = c
    · subst hx
      exact ⟨xs, by rw [List.dropWhile_cons, if_neg (by simp)]⟩
    · rcases List.mem_cons.mp h with h | h
      · exact absurd h.symm hx
      · obtain ⟨b, hb⟩ := ih h
        exact ⟨b, by rw [List.dropWhile_cons, if_pos (by simp [hx]), hb]⟩

/-- A trailing `")"`-stripper, for modelling claim C3's words "the value
is the remainder with a single trailing `)` removed". -/
def dropCloseParen (v : List Char) : List Char :=
  match v.reverse with
  | ')' :: r => r.reverse
  | _ => v

/-- The tag parse predicted by claim C3's words: split on the first `(`;
the trimmed part before it is the name; if a `(` is present anywhere in
the segment, the value is the remainder with a single trailing `)`
removed; otherwise the value is absent. -/
def specParseTag (seg : List Char) : List Char × Option (List Char) :=
  if '(' ∈ seg then
    (strip (seg.takeWhile (fun a => a ≠ '(')),
     some (dropCloseParen ((seg.dropWhile (fun a => a ≠ '(')).drop 1)))
  else (strip seg, none)

/-- Claim C3 counterexample: on the segment `"n (a(b)"` (two `(`
characters, a space before the first), the code returns name `"n "`
(not re-trimmed) with **no** value, while the claim predicts the trimmed
name `"n"` with value `"a(b"`. -/
theorem claim_C3_counterexample :
    parse_tag ['n', ' ', '(', 'a', '(', 'b', ')'] = (['n', ' '], none)
    ∧ specParseTag ['n', ' ', '(', 'a', '(', 'b', ')'] = (['n'], some ['a', '(', 'b'])
    ∧ ((['n', ' '], (none : Option (List Char))) ≠ (['n'], some ['a', '(', 'b'])) :=
  ⟨by rfl, by rfl, by decide⟩

/-- Claim C3 (amended): the segment is trimmed, then split on **every**
`(`: the part before the first `(` — not re-trimmed — is the tag name;
if the trimmed segment contains exactly one `(`, the value is the
remainder after it with its final character removed (whatever that
character is); otherwise (no `(`, or two or more) the value is absent. -/
theorem claim_C3_tag_split (seg : List Char) :
    parse_tag seg =
      ((strip seg).takeWhile (fun a => a ≠ '('),
       if (strip seg).count '(' = 1 then
         some ((((strip seg).dropWhile (fun a => a ≠ '(')).drop 1).dropLast)
       else none) := by
  by_cases hmem : '(' ∈ strip seg
  case neg =>
    have h0 : (strip seg).count '(' = 0 := List.count_eq_zero.mpr hmem
    unfold parse_tag
    rw [pySplit_of_not_mem hmem, takeWhile_ne_of_not_mem hmem, if_neg (by omega)]
  case pos =>
    obtain ⟨b, hb⟩ := dropWhile_ne_of_mem hmem
    set a := (strip seg).takeWhile (fun x => x ≠ '(') with ha
    have hnota : '(' ∉ a := by
      intro hc
      have := List.mem_takeWhile_imp hc
      simp at this
    have hdecomp : a ++ '(' :: b = strip seg := by
      conv_rhs => rw [← List.takeWhile_append_dropWhile (fun x => x ≠ '(') (strip seg)]
      rw [hb, ha]
    have hta : a.count '(' = 0 := List.count_eq_zero.mpr hnota
    have hcnt : (strip seg).count '(' = b.count '(' + 1 := by
      rw [← hdecomp, List.count_append, List.count_cons, hta]
      simp
    have hsplit : pySplit '(' (strip seg) = a :: pySplit '(' b := by
      rw [← hdecomp, pySplit_append _ hnota, pySplit_cons_self]
      simp
    by_cases hcount : (strip seg).count '(' = 1
    · have hbnot : '(' ∉ b := List.count_eq_zero.mp (by omega)
      unfold parse_tag
      rw [hsplit, pySplit_of_not_mem hbnot, if_pos hcount, hb]
      simp
    · have hbmem : '(' ∈ b := by
        by_contra hc
        rw [List.count_eq_zero.mpr hc] at hcnt
        omega
      have hlen : 2 ≤ (pySplit '(' b).length := by
        rw [pySplit_length]
        have : 0 < b.count '(' := List.count_pos_iff.mpr hbmem
        omega
      cases hps : pySplit '(' b with
      | nil => rw [hps] at hlen; simp at hlen
      | cons x1 r =>
        cases r with
        | nil => rw [hps] at hlen; simp at hlen
        | cons x2 r2 =>
          unfold parse_tag
          rw [hsplit, hps, if_neg hcount]

/-- Witness for C3 (amended): instantiated at the segment
`" t(100) "`. -/
theorem claim_C3_tag_split_witness :
    parse_tag [' ', 't', '(', '1', '0', '0', ')', ' '] =
      ((strip [' ', 't', '(', '1', '0', '0', ')', ' ']).takeWhile (fun a => a ≠ '('),
       if (strip [' ', 't', '(', '1', '0', '0', ')', ' ']).count '(' = 1 then
         some ((((strip [' ', 't', '(', '1', '0', '0', ')', ' ']).dropWhile
           (fun a => a ≠ '(')).drop 1).dropLast)
       else none) :=
  claim_C3_tag_split [' ', 't', '(', '1', '0', '0', ')', ' ']

/-! ### Claims C10 and C7: rendering -/

theorem exists_concat_clean {l : List Char} (h : rstripP l = l) (hne : l ≠ []) :
    ∃ m c, l = m ++ [c] ∧ pySpace c = false := by
  cases hr : l.reverse with
  | nil => rw [List.reverse_eq_nil_iff] at hr; exact absurd hr hne
  | cons c m =>
    refine ⟨m.reverse, c, ?_, ?_⟩
    · rw [← List.reverse_reverse l, hr]
      simp
    · cases hc : pySpace c with
      | false => rfl
      | true =>
        exfalso
        unfold rstripP at h
        rw [hr, List.dropWhile_cons, if_pos hc] at h
        have hle : (List.dropWhile pySpace m).length ≤ m.length :=
          (List.dropWhile_sublist pySpace).length_le
        have h2 : l.length = m.length + 1 := by
          rw [← List.length_reverse l, hr]
          simp
        rw [← h] at h2
        simp at h2
        omega

theorem mk_node_basic {line : List Char} {nd : NodeData} (h : mk_node line = some nd) :
    nd.line = strip line ∧ nd.tabs = countTabs line := by
  simp only [mk_node] at h
  split at h
  · rw [Option.some.injEq] at h; subst h; exact ⟨rfl, rfl⟩
  · split at h
    · rw [Option.some.injEq] at h; subst h; exact ⟨rfl, rfl⟩
    · split at h
      · rw [Option.some.injEq] at h; subst h; exact ⟨rfl, rfl⟩
      · exact absurd h (by simp)

/-- Claim C10: a task node always renders with a single space after the
name even with no tags, so a tagless task whose canonical line is
`tabs ++ "- " ++ name` parses to that node and re-renders with a trailing
space appended — hence it does not round-trip to its original text. -/
theorem claim_C10_trailing_space (t : Nat) (name : List Char) (hne : name ≠ [])
    (h1 : lstripP name = name) (h2 : rstripP name = name) (h3 : '@' ∉ name) :
    mk_node (tabRep t ++ '-' :: ' ' :: name) =
      some ⟨NodeKind.task, t, '-' :: ' ' :: name, name, [], []⟩
    ∧ renderNode ⟨NodeKind.task, t, '-' :: ' ' :: name, name, [], []⟩ =
      (tabRep t ++ '-' :: ' ' :: name) ++ [' ']
    ∧ (tabRep t ++ '-' :: ' ' :: name) ++ [' '] ≠ tabRep t ++ '-' :: ' ' :: name := by
  obtain ⟨m, c, hmc, hc⟩ := exists_concat_clean h2 hne
  have hlb : lstripP ('-' :: ' ' :: name) = '-' :: ' ' :: name :=
    lstrip_cons_clean (by decide) _
  have hrb : rstripP ('-' :: ' ' :: name) = '-' :: ' ' :: name := by
    rw [hmc, show '-' :: ' ' :: (m ++ [c]) = ('-' :: ' ' :: m) ++ [c] by simp]
    exact rstrip_concat_clean hc _
  have hstrip : strip (tabRep t ++ '-' :: ' ' :: name) = '-' :: ' ' :: name :=
    strip_tabRep_clean t hlb hrb
  have hnot : '@' ∉ ('-' :: ' ' :: name) := by
    intro hmm
    rcases List.mem_cons.mp hmm with hx | hx
    · exact absurd hx (by decide)
    · rcases List.mem_cons.mp hx with hy | hy
      · exact absurd hy (by decide)
      · exact h3 hy
  refine ⟨?_, ?_, ?_⟩
  · simp only [mk_node, hstrip]
    rw [if_pos (by rfl)]
    rw [countTabs_tabRep t hlb, strip_clean hlb hrb, pySplit_of_not_mem hnot]
    simp [parse_tags, strip_clean h1 h2]
  · simp [renderNode, joinSp]
  · intro hmm
    have := congrArg List.length hmm
    simp at this

/-- Witness for C10: the tagless task line `"- N"` renders as `"- N "`. -/
theorem claim_C10_trailing_space_witness :
    mk_node (tabRep 0 ++ '-' :: ' ' :: ['N']) =
      some ⟨NodeKind.task, 0, '-' :: ' ' :: ['N'], ['N'], [], []⟩
    ∧ renderNode ⟨NodeKind.task, 0, '-' :: ' ' :: ['N'], ['N'], [], []⟩ =
      (tabRep 0 ++ '-' :: ' ' :: ['N']) ++ [' ']
    ∧ (tabRep 0 ++ '-' :: ' ' :: ['N']) ++ [' '] ≠ tabRep 0 ++ '-' :: ' ' :: ['N'] :=
  claim_C10_trailing_space 0 ['N'] (by decide) (by decide) (by decide) (by decide)

/-- Claim C7: a project or note node renders as its depth in tab
characters followed by its stored trimmed raw text; consequently every
well-formed project or note line (tabs followed by whitespace-clean
text) reproduces itself exactly under parse-then-render. -/
theorem claim_C7_project_note_render (line : List Char) (nd : NodeData)
    (h : mk_node line = some nd) (hk : nd.kind ≠ NodeKind.task) :
    renderNode nd = tabRep nd.tabs ++ strip line
    ∧ (∀ t body, line = tabRep t ++ body → lstripP body = body → rstripP body = body →
        renderNode nd = line) := by
  obtain ⟨hline, htabs⟩ := mk_node_basic h
  have hr : renderNode nd = tabRep nd.tabs ++ nd.line := by
    unfold renderNode
    cases hknd : nd.kind with
    | task => exact absurd hknd hk
    | project => rfl
    | note => rfl
  have hmain : renderNode nd = tabRep nd.tabs ++ strip line := by rw [hr, hline]
  refine ⟨hmain, ?_⟩
  intro t body hlb hb1 hb2
  rw [hmain, hlb, strip_tabRep_clean t hb1 hb2, htabs, hlb, countTabs_tabRep t hb1]

/-- Witness for C7: the project line `"\tP:"` round-trips exactly. -/
theorem claim_C7_project_note_render_witness :
    renderNode ⟨NodeKind.project, 1, ['P', ':'], ['P'], [], []⟩ = ['\t', 'P', ':'] := by
  have h := claim_C7_project_note_render ['\t', 'P', ':']
    ⟨NodeKind.project, 1, ['P', ':'], ['P'], [], []⟩ rfl (by decide)
  exact h.2 1 ['P', ':'] (by decide) (by decide) (by decide)

/-! ### Claim C8: filter_by_tag -/

/-- Claim C8: `filter_by_tag` returns exactly the task nodes of the tree
whose tag dict contains the name, in depth-first document order —
projects and notes are never returned (the predicate demands the task
variant), and the result is empty when no task matches.  The embedding
is a pure function, so the query mutates nothing by construction. -/
theorem claim_C8_filter (tag : List Char) (f : List NTree) :
    filter_by_tag tag f = (dfsForest f).filter
      (fun d => decide (d.kind = NodeKind.task) && hasKey d.taskTags tag) := by
  induction f using dfsForest.induct with
  | case1 => simp [filter_by_tag, dfsForest]
  | case2 d cs rest ih1 ih2 =>
    simp only [filter_by_tag, dfsForest, List.filter_cons, List.filter_append, ih1, ih2]
    by_cases hd : d.kind = NodeKind.task
    · by_cases hh : hasKey d.taskTags tag
      · simp [hd, hh]
      · simp [hd, hh]
    · simp [hd]

/-! ### Claim C9: every line yields exactly one node in the tree -/

theorem dfs_append (a b : List NTree) :
    dfsForest (a ++ b) = dfsForest a ++ dfsForest b := by
  induction a using dfsForest.induct with
  | case1 => simp [dfsForest]
  | case2 d cs rest ih1 ih2 =>
    simp [dfsForest, ih2]

theorem dfs_length_set (f : List NTree) (i : Nat) (d : NodeData) (cs cs' : List NTree)
    (h : f.get? i = some (.node d cs)) :
    (dfsForest (f.set i (.node d cs'))).length + (dfsForest cs).length =
      (dfsForest f).length + (dfsForest cs').length := by
  induction f generalizing i with
  | nil => simp at h
  | cons y rest ih =>
    cases i with
    | zero =>
      simp at h
      subst h
      simp only [List.set_cons_zero, dfsForest, List.length_cons, List.length_append]
      omega
    | succ n =>
      simp only [List.get?_cons_succ] at h
      cases y with
      | node dy csy =>
        simp only [List.set_cons_succ, dfsForest, List.length_cons, List.length_append]
        have := ih n h
        omega

theorem appendAt_dfs_length (p : List Nat) (f : List NTree) (x : NTree)
    (f' : List NTree) (j : Nat) (h : appendAt f p x = some (f', j)) :
    (dfsForest f').length = (dfsForest f).length + (dfsForest [x]).length := by
  induction p generalizing f f' j with
  | nil =>
    simp [appendAt] at h
    obtain ⟨h1, _⟩ := h
    subst h1
    rw [dfs_append]
    simp
  | cons i q ih =>
    simp only [appendAt] at h
    cases hg : f.get? i with
    | none => rw [hg] at h; simp at h
    | some y =>
      cases y with
      | node d cs =>
        rw [hg] at h
        dsimp only at h
        cases ha : appendAt cs q x with
        | none => rw [ha] at h; simp at h
        | some pr =>
          obtain ⟨cs', j'⟩ := pr
          rw [ha] at h
          dsimp only at h
          simp only [Option.some.injEq, Prod.mk.injEq] at h
          obtain ⟨h1, _⟩ := h
          subst h1
          have hset := dfs_length_set f i d cs cs' hg
          have hrec := ih cs cs' j' ha
          omega

theorem stepNode_count {st : PState} {nd : NodeData} {st' : PState}
    (h : stepNode st nd = some st') :
    (dfsForest st'.roots).length = (dfsForest st.roots).length + 1 := by
  have hroot : ∀ q : Option (List Nat),
      (⟨st.roots ++ [.node nd []], q⟩ : PState) = st' →
      (dfsForest st'.roots).length = (dfsForest st.roots).length + 1 := by
    intro q hq
    subst hq
    rw [dfs_append]
    simp [dfsForest]
  simp only [stepNode] at h
  split at h
  · split at h
    · split at h
      · simp at h
      · split at h
        · split at h
          · simp at h
          · rename_i f j ha
            simp only [Option.some.injEq] at h
            subst h
            have := appendAt_dfs_length _ st.roots _ f j ha
            simpa [dfsForest] using this
        · split at h
          · simp at h
          · split at h
            · simp at h
            · rename_i f j ha
              simp only [Option.some.injEq] at h
              subst h
              have := appendAt_dfs_length _ st.roots _ f j ha
              simpa [dfsForest] using this
    · simp only [Option.some.injEq] at h
      exact hroot _ h
  · simp only [Option.some.injEq] at h
    exact hroot _ h

theorem runLines_count : ∀ (ls : List (List Char)) (st st' : PState),
    runLines st ls = some st' →
    (dfsForest st'.roots).length =
      (dfsForest st.roots).length + (ls.filterMap mk_node).length := by
  intro ls
  induction ls with
  | nil =>
    intro st st' h
    simp [runLines] at h
    subst h
    simp
  | cons l rest ih =>
    intro st st' h
    simp only [runLines] at h
    cases hm : mk_node l with
    | none =>
      rw [hm] at h
      rw [List.filterMap_cons_none hm]
      exact ih st st' h
    | some nd =>
      rw [hm] at h
      dsimp only at h
      cases hs : stepNode st nd with
      | none => rw [hs] at h; simp at h
      | some st1 =>
        rw [hs] at h
        dsimp only at h
        rw [List.filterMap_cons_some hm]
        have h1 := stepNode_count hs
        have h2 := ih st1 st' h
        simp only [List.length_cons]
        omega

/-- Claim C9: after parsing any input, every non-blank line appears as
exactly one node of the resulting tree: the depth-first listing of the
forest has exactly as many entries as the input has non-blank lines.
(Single parenthood and acyclicity hold by construction in the embedding:
the forest is an inductive tree, where each node occurs at one path.) -/
theorem claim_C9_node_count (ls : List (List Char)) (st : PState)
    (h : parse_taskpaper ls = some st) :
    (dfsForest st.roots).length = (ls.filterMap mk_node).length := by
  have := runLines_count ls ⟨[], none⟩ st h
  simpa [dfsForest] using this

/-- Witness for C9: the one-line document `"A:"` yields one node. -/
theorem claim_C9_node_count_witness :
    (dfsForest (PState.mk [.node ⟨NodeKind.project, 0, ['A', ':'], ['A'], [], []⟩ []]
      (some [0])).roots).length = ([['A', ':']].filterMap mk_node).length :=
  claim_C9_node_count [['A', ':']] _ rfl

/-! ### Paths under appends: preservation lemmas for the tree builder -/

theorem getAt_append {f : List NTree} {p : List Nat} {d : NodeData}
    (h : getAt f p = some d) (g : List NTree) : getAt (f ++ g) p = some d := by
  cases p with
  | nil => simp [getAt] at h
  | cons i q =>
    simp only [getAt] at h ⊢
    cases hg : f.get? i with
    | none => rw [hg] at h; simp at h
    | some y =>
      have hi : i < f.length := by
        rcases List.get?_eq_some.mp hg with ⟨hlt, _⟩
        exact hlt
      rw [hg] at h
      rw [List.get?_append hi, hg]
      exact h

theorem getAt_concat_new (f : List NTree) (nd : NodeData) (cs : List NTree) :
    getAt (f ++ [.node nd cs]) [f.length] = some nd := by
  simp [getAt, List.get?_concat_length]

theorem getAt_appendAt {q : List Nat} {f f' : List NTree} {x : NTree} {j : Nat}
    (ha : appendAt f q x = some (f', j)) :
    ∀ {p : List Nat} {d : NodeData}, getAt f p = some d → getAt f' p = some d := by
  induction q generalizing f f' j with
  | nil =>
    simp [appendAt] at ha
    obtain ⟨h1, _⟩ := ha
    subst h1
    intro p d h
    exact getAt_append h [x]
  | cons i iq ih =>
    simp only [appendAt] at ha
    cases hg : f.get? i with
    | none => rw [hg] at ha; simp at ha
    | some y =>
      cases y with
      | node dd cs =>
        rw [hg] at ha
        dsimp only at ha
        cases haa : appendAt cs iq x with
        | none => rw [haa] at ha; simp at ha
        | some pr =>
          obtain ⟨cs', j'⟩ := pr
          rw [haa] at ha
          dsimp only at ha
          simp only [Option.some.injEq, Prod.mk.injEq] at ha
          obtain ⟨h1, _⟩ := ha
          subst h1
          intro p d h
          cases p with
          | nil => simp [getAt] at h
          | cons a aq =>
            simp only [getAt] at h ⊢
            by_cases hai : a = i
            · subst hai
              have hlt : a < f.length := by
                rcases List.get?_eq_some.mp hg with ⟨hlt, _⟩
                exact hlt
              rw [List.get?_set_eq_of_lt _ hlt]
              rw [hg] at h
              dsimp only at h ⊢
              cases aq with
              | nil => exact h
              | cons b bq => exact ih haa h
            · rw [List.get?_set_ne _ _ (fun he => hai he.symm)]
              cases hga : f.get? a with
              | none => rw [hga] at h; simp at h
              | some z =>
                rw [hga] at h
                exact h

theorem appendAt_some_of_getAt {f : List NTree} {p : List Nat} {d : NodeData}
    (h : getAt f p = some d) (x : NTree) :
    ∃ f' j, appendAt f p x = some (f', j) := by
  induction p generalizing f with
  | nil => simp [getAt] at h
  | cons i q ih =>
    simp only [getAt] at h
    cases hg : f.get? i with
    | none => rw [hg] at h; simp at h
    | some y =>
      cases y with
      | node dd cs =>
        rw [hg] at h
        dsimp only at h
        simp only [appendAt]
        rw [hg]
        dsimp only
        cases q with
        | nil =>
          simp [appendAt]
        | cons b bq =>
          obtain ⟨cs', j, ha⟩ := ih h
          rw [ha]
          exact ⟨_, _, rfl⟩

theorem appendAt_getAt_new {p : List Nat} {f f' : List NTree} {nd : NodeData}
    {cs0 : List NTree} {j : Nat}
    (h : appendAt f p (.node nd cs0) = some (f', j)) :
    getAt f' (p ++ [j]) = some nd := by
  induction p generalizing f f' j with
  | nil =>
    simp [appendAt] at h
    obtain ⟨h1, h2⟩ := h
    subst h1
    subst h2
    exact getAt_concat_new f nd cs0
  | cons i q ih =>
    simp only [appendAt] at h
    cases hg : f.get? i with
    | none => rw [hg] at h; simp at h
    | some y =>
      cases y with
      | node dd cs =>
        rw [hg] at h
        dsimp only at h
        cases haa : appendAt cs q (.node nd cs0) with
        | none => rw [haa] at h; simp at h
        | some pr =>
          obtain ⟨cs', j'⟩ := pr
          rw [haa] at h
          dsimp only at h
          simp only [Option.some.injEq, Prod.mk.injEq] at h
          obtain ⟨h1, h2⟩ := h
          subst h1
          subst h2
          have hlt : i < f.length := by
            rcases List.get?_eq_some.mp hg with ⟨hlt, _⟩
            exact hlt
          simp only [List.cons_append, getAt]
          rw [List.get?_set_eq_of_lt _ hlt]
          dsimp only
          cases q with
          | nil => exact ih haa
          | cons b bq => exact ih haa

/-! ### Step and run lemmas for the builder's cursor -/

theorem stepNode_note {st st' : PState} {nd : NodeData}
    (h : stepNode st nd = some st') (hk : nd.kind = NodeKind.note) :
    st'.lastP = st.lastP ∧
      (∀ p d, getAt st.roots p = some d → getAt st'.roots p = some d) := by
  simp only [stepNode] at h
  cases hlp : st.lastP with
  | none =>
    rw [hlp] at h
    dsimp only at h
    rw [if_pos hk] at h
    simp only [Option.some.injEq] at h
    subst h
    exact ⟨rfl, fun p d hd => getAt_append hd _⟩
  | some p =>
    rw [hlp] at h
    dsimp only at h
    by_cases ht : nd.tabs ≠ 0
    · rw [if_pos ht] at h
      cases hget : getAt st.roots p with
      | none => rw [hget] at h; simp at h
      | some lastD =>
        rw [hget] at h
        dsimp only at h
        rw [if_pos (Or.inr hk)] at h
        cases ha : appendAt st.roots p (.node nd []) with
        | none => rw [ha] at h; simp at h
        | some pr =>
          obtain ⟨f, j⟩ := pr
          rw [ha] at h
          dsimp only at h
          rw [if_pos hk] at h
          simp only [Option.some.injEq] at h
          subst h
          exact ⟨rfl, fun pp dd hdd => getAt_appendAt ha hdd⟩
    · rw [if_neg ht] at h
      rw [if_pos hk] at h
      simp only [Option.some.injEq] at h
      subst h
      exact ⟨rfl, fun pp dd hdd => getAt_append hdd _⟩

theorem stepNode_cursor {st : PState} {nd : NodeData} {st' : PState}
    (h : stepNode st nd = some st') (hk : nd.kind ≠ NodeKind.note) :
    ∃ p', st'.lastP = some p' ∧ getAt st'.roots p' = some nd := by
  simp only [stepNode] at h
  cases hlp : st.lastP with
  | none =>
    rw [hlp] at h
    dsimp only at h
    rw [if_neg hk] at h
    simp only [Option.some.injEq] at h
    subst h
    exact ⟨[st.roots.length], rfl, getAt_concat_new _ _ _⟩
  | some p =>
    rw [hlp] at h
    dsimp only at h
    by_cases ht : nd.tabs ≠ 0
    · rw [if_pos ht] at h
      cases hget : getAt st.roots p with
      | none => rw [hget] at h; simp at h
      | some lastD =>
        rw [hget] at h
        dsimp only at h
        by_cases hcond : nd.tabs > lastD.tabs ∨ nd.kind = NodeKind.note
        · rw [if_pos hcond] at h
          cases ha : appendAt st.roots p (.node nd []) with
          | none => rw [ha] at h; simp at h
          | some pr =>
            obtain ⟨f, j⟩ := pr
            rw [ha] at h
            dsimp only at h
            rw [if_neg hk] at h
            simp only [Option.some.injEq] at h
            subst h
            exact ⟨p ++ [j], rfl, appendAt_getAt_new ha⟩
        · rw [if_neg hcond] at h
          cases hcl : climb st.roots nd.tabs p with
          | none => rw [hcl] at h; simp at h
          | some p1 =>
            rw [hcl] at h
            dsimp only at h
            cases ha : appendAt st.roots p1.dropLast (.node nd []) with
            | none => rw [ha] at h; simp at h
            | some pr =>
              obtain ⟨f, j⟩ := pr
              rw [ha] at h
              dsimp only at h
              simp only [Option.some.injEq] at h
              subst h
              exact ⟨p1.dropLast ++ [j], rfl, appendAt_getAt_new ha⟩
    · rw [if_neg ht] at h
      rw [if_neg hk] at h
      simp only [Option.some.injEq] at h
      subst h
      exact ⟨[st.roots.length], rfl, getAt_concat_new _ _ _⟩

theorem stepNode_valid {st st' : PState} {nd : NodeData}
    (h : stepNode st nd = some st')
    (hv : ∀ p, st.lastP = some p → ∃ d, getAt st.roots p = some d) :
    ∀ p', st'.lastP = some p' → ∃ d, getAt st'.roots p' = some d := by
  by_cases hk : nd.kind = NodeKind.note
  · obtain ⟨hl, hp⟩ := stepNode_note h hk
    intro p' hp'
    rw [hl] at hp'
    obtain ⟨d, hd⟩ := hv p' hp'
    exact ⟨d, hp p' d hd⟩
  · obtain ⟨p1, hl, hd⟩ := stepNode_cursor h hk
    intro p' hp'
    rw [hl] at hp'
    injection hp' with he
    exact ⟨nd, he ▸ hd⟩

theorem runLines_valid : ∀ (ls : List (List Char)) (st st' : PState),
    runLines st ls = some st' →
    (∀ p, st.lastP = some p → ∃ d, getAt st.roots p = some d) →
    ∀ p', st'.lastP = some p' → ∃ d, getAt st'.roots p' = some d := by
  intro ls
  induction ls with
  | nil =>
    intro st st' h hv
    simp [runLines] at h
    subst h
    exact hv
  | cons l rest ih =>
    intro st st' h hv
    simp only [runLines] at h
    cases hm : mk_node l with
    | none =>
      rw [hm] at h
      dsimp only at h
      exact ih st st' h hv
    | some nd =>
      rw [hm] at h
      dsimp only at h
      cases hs : stepNode st nd with
      | none => rw [hs] at h; simp at h
      | some st1 =>
        rw [hs] at h
        dsimp only at h
        exact ih st1 st' h (stepNode_valid hs hv)

theorem runLines_append (a b : List (List Char)) (st : PState) :
    runLines st (a ++ b) =
      match runLines st a with
      | some st1 => runLines st1 b
      | none => none := by
  induction a generalizing st with
  | nil => simp [runLines]
  | cons l rest ih =>
    simp only [List.cons_append, runLines]
    cases hm : mk_node l with
    | none =>
      dsimp only
      exact ih st
    | some nd =>
      dsimp only
      cases hs : stepNode st nd with
      | none => rfl
      | some st1 => exact ih st1

theorem runLines_notes : ∀ (rest : List (List Char)) (st st' : PState),
    (∀ l ∈ rest, ∀ k, mk_node l = some k → k.kind = NodeKind.note) →
    runLines st rest = some st' →
    st'.lastP = st.lastP ∧
      (∀ p d, getAt st.roots p = some d → getAt st'.roots p = some d) := by
  intro rest
  induction rest with
  | nil =>
    intro st st' _ h
    simp [runLines] at h
    subst h
    exact ⟨rfl, fun _ _ hd => hd⟩
  | cons l rs ih =>
    intro st st' hn h
    simp only [runLines] at h
    cases hm : mk_node l with
    | none =>
      rw [hm] at h
      dsimp only at h
      exact ih st st' (fun l' hl' => hn l' (List.mem_cons_of_mem _ hl')) h
    | some nd =>
      rw [hm] at h
      dsimp only at h
      cases hs : stepNode st nd with
      | none => rw [hs] at h; simp at h
      | some st1 =>
        rw [hs] at h
        dsimp only at h
        have hknote : nd.kind = NodeKind.note := hn l (List.mem_cons_self _ _) nd hm
        obtain ⟨h1, h2⟩ := stepNode_note hs hknote
        obtain ⟨h3, h4⟩ := ih st1 st' (fun l' hl' => hn l' (List.mem_cons_of_mem _ hl')) h
        exact ⟨h3.trans h1, fun p d hd => h4 p d (h2 p d hd)⟩

/-! ### Claim C2: note attachment -/

/-- Claim C2 counterexample: after the project line `"A:"`, the depth-0
note line `"n"` is attached as a second root child of the document — the
project has no children — refuting "the Note is attached as a child of
the most recently attached non-Note node ... including when its depth
is 0". -/
theorem claim_C2_counterexample :
    parse_taskpaper [['A', ':'], ['n']] =
      some ⟨[.node ⟨NodeKind.project, 0, ['A', ':'], ['A'], [], []⟩ [],
             .node ⟨NodeKind.note, 0, ['n'], ['n'], [], []⟩ []], some [0]⟩ :=
  rfl

/-- Claim C2 (amended): a note with at least one leading tab is attached
as a child of the cursor node (the most recently attached non-note node)
regardless of how its depth compares to the cursor's, and the cursor is
unchanged; a note with zero leading tabs is instead attached as a root
child of the document.  The last conjunct identifies the cursor: when the
input ends with a non-note line followed only by notes and blanks, the
cursor path resolves to that non-note node's data. -/
theorem claim_C2_note_attachment (ls : List (List Char)) (t : List Char)
    (n : NodeData) (st : PState) (p : List Nat)
    (hrun : parse_taskpaper ls = some st) (hlast : st.lastP = some p)
    (hmk : mk_node t = some n) (hkind : n.kind = NodeKind.note) :
    (n.tabs ≠ 0 → ∃ fj, appendAt st.roots p (.node n []) = some fj ∧
      parse_taskpaper (ls ++ [t]) = some ⟨fj.1, some p⟩)
    ∧ (n.tabs = 0 →
      parse_taskpaper (ls ++ [t]) = some ⟨st.roots ++ [.node n []], some p⟩)
    ∧ (∀ ls0 t0 m rest, ls = ls0 ++ t0 :: rest → mk_node t0 = some m →
        m.kind ≠ NodeKind.note →
        (∀ l ∈ rest, ∀ k, mk_node l = some k → k.kind = NodeKind.note) →
        getAt st.roots p = some m) := by
  have hvalid : ∃ d, getAt st.roots p = some d := by
    refine runLines_valid ls ⟨[], none⟩ st hrun ?_ p hlast
    intro q hq
    simp at hq
  obtain ⟨d, hd⟩ := hvalid
  refine ⟨?_, ?_, ?_⟩
  · intro ht
    obtain ⟨f, j, ha⟩ := appendAt_some_of_getAt hd (.node n [])
    refine ⟨(f, j), ha, ?_⟩
    unfold parse_taskpaper
    rw [runLines_append]
    unfold parse_taskpaper at hrun
    rw [hrun]
    dsimp only
    simp only [runLines]
    rw [hmk]
    dsimp only
    have hstep : stepNode st n = some ⟨f, some p⟩ := by
      simp only [stepNode]
      rw [hlast]
      dsimp only
      rw [if_pos ht, hd]
      dsimp only
      rw [if_pos (Or.inr hkind), ha]
      dsimp only
      rw [if_pos hkind]
    rw [hstep]
  · intro ht
    unfold parse_taskpaper
    rw [runLines_append]
    unfold parse_taskpaper at hrun
    rw [hrun]
    dsimp only
    simp only [runLines]
    rw [hmk]
    dsimp only
    have hstep : stepNode st n = some ⟨st.roots ++ [.node n []], some p⟩ := by
      simp only [stepNode]
      rw [hlast]
      dsimp only
      rw [if_neg (by omega : ¬ n.tabs ≠ 0)]
      rw [if_pos hkind]
    rw [hstep]
  · intro ls0 t0 m rest hls hm0 hk0 hnotes
    subst hls
    unfold parse_taskpaper at hrun
    rw [runLines_append] at hrun
    cases h0 : runLines ⟨[], none⟩ ls0 with
    | none => rw [h0] at hrun; simp at hrun
    | some st0 =>
      rw [h0] at hrun
      dsimp only at hrun
      simp only [runLines] at hrun
      rw [hm0] at hrun
      dsimp only at hrun
      cases hs1 : stepNode st0 m with
      | none => rw [hs1] at hrun; simp at hrun
      | some st1 =>
        rw [hs1] at hrun
        dsimp only at hrun
        obtain ⟨p1, hl1, hd1⟩ := stepNode_cursor hs1 hk0
        obtain ⟨hpres1, hpres2⟩ := runLines_notes rest st1 st hnotes hrun
        have hpp : some p1 = some p := by
          rw [← hl1, ← hpres1, hlast]
        injection hpp with hpp
        subst hpp
        exact hpres2 p1 m hd1

/-! ### Claim C1: the consecutive-depth chain invariant -/

/-- The ancestors along a path have consecutive tab counts starting at
`t`; this is the invariant the builder maintains on the cursor's chain
for well-indented inputs. -/
def chainFrom (f : List NTree) (t : Nat) : List Nat → Prop
  | [] => True
  | i :: p => ∃ d cs, f.get? i = some (.node d cs) ∧ d.tabs = t ∧ chainFrom cs (t + 1) p

theorem chainFrom_getAt : ∀ (p : List Nat) (f : List NTree) (t i : Nat),
    chainFrom f t (i :: p) →
    ∃ d, getAt f (i :: p) = some d ∧ d.tabs = t + p.length := by
  intro p
  induction p with
  | nil =>
    intro f t i h
    obtain ⟨d, cs, hg, htb, _⟩ := h
    refine ⟨d, ?_, by simp [htb]⟩
    simp only [getAt]
    rw [hg]
  | cons b bq ih =>
    intro f t i h
    obtain ⟨d, cs, hg, htb, hch⟩ := h
    obtain ⟨d', hg', ht'⟩ := ih cs (t + 1) b hch
    refine ⟨d', ?_, by simp only [List.length_cons]; omega⟩
    simp only [getAt]
    rw [hg]
    dsimp only
    exact hg'

theorem chainFrom_root_append {f : List NTree} {t : Nat} {p : List Nat}
    (h : chainFrom f t p) (g : List NTree) : chainFrom (f ++ g) t p := by
  cases p with
  | nil => trivial
  | cons i q =>
    obtain ⟨d, cs, hg, htb, hch⟩ := h
    have hi : i < f.length := by
      rcases List.get?_eq_some.mp hg with ⟨hlt, _⟩
      exact hlt
    exact ⟨d, cs, by rw [List.get?_append hi, hg], htb, hch⟩

theorem chainFrom_take : ∀ (p : List Nat) (f : List NTree) (t k : Nat),
    chainFrom f t p → chainFrom f t (p.take k) := by
  intro p
  induction p with
  | nil =>
    intro f t k _
    simp [List.take_nil]
    trivial
  | cons i q ih =>
    intro f t k h
    cases k with
    | zero => trivial
    | succ k' =>
      obtain ⟨d, cs, hg, htb, hch⟩ := h
      exact ⟨d, cs, hg, htb, ih cs (t + 1) k' hch⟩

theorem chainFrom_appendAt : ∀ (p : List Nat) (f : List NTree) (t : Nat) (nd : NodeData),
    chainFrom f t p →
    ∃ f' j, appendAt f p (.node nd []) = some (f', j) ∧
      chainFrom f' t p ∧
      (nd.tabs = t + p.length → chainFrom f' t (p ++ [j])) := by
  intro p
  induction p with
  | nil =>
    intro f t nd _
    refine ⟨f ++ [.node nd []], f.length, ?_, trivial, ?_⟩
    · rfl
    · intro htb
      simp only [List.length_nil, Nat.add_zero] at htb
      exact ⟨nd, [], List.get?_concat_length f _, htb, trivial⟩
  | cons i q ih =>
    intro f t nd h
    obtain ⟨d, cs, hg, htb, hch⟩ := h
    obtain ⟨cs', j, ha, hch', hext⟩ := ih cs (t + 1) nd hch
    have hi : i < f.length := by
      rcases List.get?_eq_some.mp hg with ⟨hlt, _⟩
      exact hlt
    refine ⟨f.set i (.node d cs'), j, ?_, ?_, ?_⟩
    · simp only [appendAt]
      rw [hg]
      dsimp only
      rw [ha]
    · exact ⟨d, cs', List.get?_set_eq_of_lt _ hi, htb, hch'⟩
    · intro htabs
      refine ⟨d, cs', List.get?_set_eq_of_lt _ hi, htb, ?_⟩
      apply hext
      simp only [List.length_cons] at htabs
      omega

theorem climbFuel_chain : ∀ (k : Nat) (p : List Nat) (f : List NTree) (nt : Nat),
    p.length ≤ k → chainFrom f 0 p → p ≠ [] → 1 ≤ nt → nt + 1 ≤ p.length →
    climbFuel f nt k p = some (p.take (nt + 1)) := by
  intro k
  induction k with
  | zero =>
    intro p f nt hk _ hne _ _
    cases p with
    | nil => exact absurd rfl hne
    | cons i q => simp at hk
  | succ k ih =>
    intro p f nt hk hch hne h1 h2
    cases p with
    | nil => exact absurd rfl hne
    | cons i q =>
      obtain ⟨d, hget, htabs⟩ := chainFrom_getAt q f 0 i hch
      simp only [climbFuel]
      rw [hget]
      dsimp only
      by_cases hlt : nt < d.tabs
      · rw [if_pos hlt]
        have hq : nt + 1 ≤ q.length := by omega
        have hd1 : (i :: q).dropLast = (i :: q).take ((i :: q).length - 1) :=
          List.dropLast_eq_take _
        have hchd : chainFrom f 0 ((i :: q).dropLast) := by
          rw [hd1]
          exact chainFrom_take _ f 0 _ hch
        have hne2 : (i :: q).dropLast ≠ [] := by
          intro hcon
          have hl := congrArg List.length hcon
          simp only [List.length_dropLast, List.length_cons, List.length_nil] at hl
          omega
        have hlen2 : (i :: q).dropLast.length ≤ k := by
          simp only [List.length_dropLast, List.length_cons]
          simp only [List.length_cons] at hk
          omega
        have h2' : nt + 1 ≤ (i :: q).dropLast.length := by
          simp only [List.length_dropLast, List.length_cons]
          omega
        rw [ih _ f nt hlen2 hchd hne2 h1 h2']
        rw [hd1, List.take_take]
        have hmin : (nt + 1) ⊓ ((i :: q).length - 1) = nt + 1 :=
          Nat.min_eq_left (by simp only [List.length_cons]; omega)
        rw [hmin]
      · rw [if_neg hlt]
        have h2' : nt + 1 ≤ q.length + 1 := by simpa using h2
        have hnt : nt = q.length := by omega
        rw [hnt, show q.length + 1 = (i :: q).length by simp, List.take_length]

theorem climb_chain {p : List Nat} {f : List NTree} {nt : Nat}
    (hch : chainFrom f 0 p) (hne : p ≠ []) (h1 : 1 ≤ nt) (h2 : nt + 1 ≤ p.length) :
    climb f nt p = some (p.take (nt + 1)) :=
  climbFuel_chain p.length p f nt (le_refl _) hch hne h1 h2

/-- Well-indented inputs: the first non-note node is untabbed and every
later non-note node is at most one tab deeper than the previous non-note
node (notes are unconstrained). -/
def wiB : Option Nat → List NodeData → Bool
  | _, [] => true
  | cur, nd :: rest =>
    if nd.kind = NodeKind.note then wiB cur rest
    else
      match cur with
      | none => decide (nd.tabs = 0) && wiB (some nd.tabs) rest
      | some t => decide (nd.tabs ≤ t + 1) && wiB (some nd.tabs) rest

/-- The builder invariant: the cursor path is nonempty and its ancestor
chain carries consecutive tab counts 0, 1, 2, ... -/
def cursorInv (st : PState) : Prop :=
  ∀ p, st.lastP = some p → p ≠ [] ∧ chainFrom st.roots 0 p

/-- The tab count of the cursor node (its chain length minus one). -/
def cursorTabs (st : PState) : Option Nat := st.lastP.map (fun p => p.length - 1)

theorem stepNode_ok {st : PState} {nd : NodeData}
    (hinv : cursorInv st)
    (hnd : nd.kind ≠ NodeKind.note →
      (∀ t, cursorTabs st = some t → nd.tabs ≤ t + 1) ∧
      (cursorTabs st = none → nd.tabs = 0)) :
    ∃ st', stepNode st nd = some st' ∧ cursorInv st' ∧
      cursorTabs st' =
        if nd.kind = NodeKind.note then cursorTabs st else some nd.tabs := by
  cases hlp : st.lastP with
  | none =>
    by_cases hk : nd.kind = NodeKind.note
    · refine ⟨⟨st.roots ++ [.node nd []], none⟩, ?_, ?_, ?_⟩
      · simp only [stepNode]
        rw [hlp]
        dsimp only
        rw [if_pos hk]
      · intro p hp
        simp at hp
      · rw [if_pos hk]
        simp [cursorTabs, hlp]
    · have h0 : nd.tabs = 0 := (hnd hk).2 (by simp [cursorTabs, hlp])
      refine ⟨⟨st.roots ++ [.node nd []], some [st.roots.length]⟩, ?_, ?_, ?_⟩
      · simp only [stepNode]
        rw [hlp]
        dsimp only
        rw [if_neg hk]
      · intro p hp
        simp only [Option.some.injEq] at hp
        subst hp
        exact ⟨by simp, nd, [], List.get?_concat_length _ _, h0, trivial⟩
      · rw [if_neg hk]
        simp [cursorTabs, h0]
  | some p =>
    obtain ⟨hne, hch⟩ := hinv p hlp
    cases p with
    | nil => exact absurd rfl hne
    | cons i q =>
      by_cases ht0 : nd.tabs = 0
      · by_cases hk : nd.kind = NodeKind.note
        · refine ⟨⟨st.roots ++ [.node nd []], some (i :: q)⟩, ?_, ?_, ?_⟩
          · simp only [stepNode]
            rw [hlp]
            dsimp only
            rw [if_neg (fun hcon => hcon ht0), if_pos hk]
          · intro pp hpp
            simp only [Option.some.injEq] at hpp
            subst hpp
            exact ⟨hne, chainFrom_root_append hch _⟩
          · rw [if_pos hk]
            simp [cursorTabs, hlp]
        · refine ⟨⟨st.roots ++ [.node nd []], some [st.roots.length]⟩, ?_, ?_, ?_⟩
          · simp only [stepNode]
            rw [hlp]
            dsimp only
            rw [if_neg (fun hcon => hcon ht0), if_neg hk]
          · intro pp hpp
            simp only [Option.some.injEq] at hpp
            subst hpp
            exact ⟨by simp, nd, [], List.get?_concat_length _ _, ht0, trivial⟩
          · rw [if_neg hk]
            simp [cursorTabs, ht0]
      · obtain ⟨lastD, hget, htabs⟩ := chainFrom_getAt q st.roots 0 i hch
        by_cases hk : nd.kind = NodeKind.note
        · obtain ⟨f, j, ha, hch', _⟩ := chainFrom_appendAt (i :: q) st.roots 0 nd hch
          refine ⟨⟨f, some (i :: q)⟩, ?_, ?_, ?_⟩
          · simp only [stepNode]
            rw [hlp]
            dsimp only
            rw [if_pos ht0, hget]
            dsimp only
            rw [if_pos (Or.inr hk), ha]
            dsimp only
            rw [if_pos hk]
          · intro pp hpp
            simp only [Option.some.injEq] at hpp
            subst hpp
            exact ⟨hne, hch'⟩
          · rw [if_pos hk]
            simp [cursorTabs, hlp]
        · have hle : nd.tabs ≤ q.length + 1 := by
            have := (hnd hk).1 ((i :: q).length - 1) (by simp [cursorTabs, hlp])
            simpa using this
          by_cases hgt : nd.tabs > lastD.tabs
          · have hgt' := hgt
            rw [htabs] at hgt'
            have hexact : nd.tabs = q.length + 1 := by omega
            obtain ⟨f, j, ha, hch', hext⟩ :=
              chainFrom_appendAt (i :: q) st.roots 0 nd hch
            refine ⟨⟨f, some ((i :: q) ++ [j])⟩, ?_, ?_, ?_⟩
            · simp only [stepNode]
              rw [hlp]
              dsimp only
              rw [if_pos ht0, hget]
              dsimp only
              rw [if_pos (Or.inl hgt), ha]
              dsimp only
              rw [if_neg hk]
            · intro pp hpp
              simp only [Option.some.injEq] at hpp
              subst hpp
              refine ⟨by simp, ?_⟩
              apply hext
              simp only [List.length_cons]
              omega
            · rw [if_neg hk]
              simp [cursorTabs, hexact]
          · have hgt' := hgt
            rw [htabs] at hgt'
            have h1t : 1 ≤ nd.tabs := by omega
            have h2t : nd.tabs + 1 ≤ (i :: q).length := by
              simp only [List.length_cons]
              omega
            have hcl : climb st.roots nd.tabs (i :: q) =
                some ((i :: q).take (nd.tabs + 1)) := climb_chain hch hne h1t h2t
            have hlen1 : ((i :: q).take (nd.tabs + 1)).length = nd.tabs + 1 := by
              simp only [List.length_take, List.length_cons]
              omega
            have hdl : ((i :: q).take (nd.tabs + 1)).dropLast =
                (i :: q).take nd.tabs := by
              rw [List.dropLast_eq_take, hlen1, Nat.add_sub_cancel, List.take_take,
                Nat.min_eq_left (Nat.le_succ _)]
            have hchtake : chainFrom st.roots 0 ((i :: q).take nd.tabs) :=
              chainFrom_take _ _ _ _ hch
            obtain ⟨f, j, ha, hch', hext⟩ :=
              chainFrom_appendAt ((i :: q).take nd.tabs) st.roots 0 nd hchtake
            have hlent : ((i :: q).take nd.tabs).length = nd.tabs := by
              simp only [List.length_take, List.length_cons]
              omega
            refine ⟨⟨f, some ((i :: q).take nd.tabs ++ [j])⟩, ?_, ?_, ?_⟩
            · simp only [stepNode]
              rw [hlp]
              dsimp only
              rw [if_pos ht0, hget]
              dsimp only
              rw [if_neg (not_or.mpr ⟨hgt, hk⟩), hcl]
              dsimp only
              rw [hdl, ha]
            · intro pp hpp
              simp only [Option.some.injEq] at hpp
              subst hpp
              refine ⟨by simp, ?_⟩
              apply hext
              rw [hlent]
              omega
            · rw [if_neg hk]
              simp [cursorTabs, List.length_append, hlent]

theorem runLines_ok : ∀ (ls : List (List Char)) (st : PState),
    cursorInv st → wiB (cursorTabs st) (ls.filterMap mk_node) = true →
    ∃ st', runLines st ls = some st' := by
  intro ls
  induction ls with
  | nil =>
    intro st _ _
    exact ⟨st, rfl⟩
  | cons l rest ih =>
    intro st hinv hwi
    simp only [runLines]
    cases hm : mk_node l with
    | none =>
      dsimp only
      apply ih st hinv
      rwa [List.filterMap_cons_none hm] at hwi
    | some nd =>
      dsimp only
      rw [List.filterMap_cons_some hm] at hwi
      by_cases hk : nd.kind = NodeKind.note
      · rw [wiB.eq_def] at hwi
        dsimp only at hwi
        rw [if_pos hk] at hwi
        obtain ⟨st', hs, hinv', hct⟩ := stepNode_ok hinv (fun hkn => absurd hk hkn)
        rw [hs]
        dsimp only
        apply ih st' hinv'
        rw [hct, if_pos hk]
        exact hwi
      · rw [wiB.eq_def] at hwi
        dsimp only at hwi
        rw [if_neg hk] at hwi
        have hndp : nd.kind ≠ NodeKind.note →
            (∀ t, cursorTabs st = some t → nd.tabs ≤ t + 1) ∧
            (cursorTabs st = none → nd.tabs = 0) := by
          intro _
          constructor
          · intro t hct
            rw [hct] at hwi
            dsimp only at hwi
            rw [Bool.and_eq_true] at hwi
            exact of_decide_eq_true hwi.1
          · intro hct
            rw [hct] at hwi
            dsimp only at hwi
            rw [Bool.and_eq_true] at hwi
            exact of_decide_eq_true hwi.1
        obtain ⟨st', hs, hinv', hct⟩ := stepNode_ok hinv hndp
        rw [hs]
        dsimp only
        apply ih st' hinv'
        rw [hct, if_neg hk]
        cases hct0 : cursorTabs st with
        | none =>
          rw [hct0] at hwi
          dsimp only at hwi
          rw [Bool.and_eq_true] at hwi
          exact hwi.2
        | some t =>
          rw [hct0] at hwi
          dsimp only at hwi
          rw [Bool.and_eq_true] at hwi
          exact hwi.2

/-- Claim C1 counterexample: tree building CAN fail.  On the input
`"\t\tA:"`, `"\tB:"` the second node's depth (1) is below every
ancestor's, the climb steps past the Document root onto the `TaskPaper`
object, and reading its missing `tabs` attribute raises AttributeError —
modelled as `none`. -/
theorem claim_C1_counterexample :
    parse_taskpaper [['\t', '\t', 'A', ':'], ['\t', 'B', ':']] = none := rfl

/-- Claim C1 (amended): for well-indented inputs — the first non-note
node untabbed and each later non-note node at most one tab deeper than
the previous non-note node — tree building never fails: the climb always
stops at an ancestor at the node's own depth and the node is attached
one level above it (at the Document root in the shallowest case).  For
inputs outside this class, a node whose depth is positive but below
every ancestor's depth makes the climb step past the Document root and
parsing raises an error instead of attaching the node as a root child. -/
theorem claim_C1_wellindented (ls : List (List Char))
    (h : wiB none (ls.filterMap mk_node) = true) :
    ∃ st, parse_taskpaper ls = some st :=
  runLines_ok ls ⟨[], none⟩ (fun p hp => by simp at hp) h

/-- Witness for C1 (amended): a project, a task one level deeper, and a
note two levels deep parse successfully. -/
theorem claim_C1_wellindented_witness :
    ∃ st, parse_taskpaper
      [['A', ':'], ['\t', '-', ' ', 'T'], ['\t', '\t', 'n']] = some st :=
  claim_C1_wellindented _ (by decide)

/-- Witness for C2 (amended): after `"A:"`, the tabbed note `"\tn"` is
appended as a child of the project at the cursor path `[0]`. -/
theorem claim_C2_note_attachment_witness :
    ∃ fj, appendAt [NTree.node ⟨NodeKind.project, 0, ['A', ':'], ['A'], [], []⟩ []] [0]
        (.node ⟨NodeKind.note, 1, ['n'], ['n'], [], []⟩ []) = some fj ∧
      parse_taskpaper [['A', ':'], ['\t', 'n']] = some ⟨fj.1, some [0]⟩ :=
  (claim_C2_note_attachment [['A', ':']] ['\t', 'n']
    ⟨NodeKind.note, 1, ['n'], ['n'], [], []⟩
    ⟨[NTree.node ⟨NodeKind.project, 0, ['A', ':'], ['A'], [], []⟩ []], some [0]⟩
    [0] rfl rfl rfl rfl).1 (by decide)

/-! ### Claim C4: task-tag round trip -/

/-- The shape invariant of a parsed tag pair, plus the two side
conditions of the amended claim (no empty value; absent-valued names are
right-clean). -/
def goodPr (pr : List Char × Option (List Char)) : Prop :=
  '@' ∉ pr.1 ∧ '(' ∉ pr.1 ∧ lstripP pr.1 = pr.1 ∧
  (pr.2 = none → rstripP pr.1 = pr.1) ∧
  ∀ v', pr.2 = some v' → v' ≠ [] ∧ '@' ∉ v' ∧ '(' ∉ v'

theorem lstrip_takeWhile (p : Char → Bool) {l : List Char} (h : lstripP l = l) :
    lstripP (l.takeWhile p) = l.takeWhile p := by
  cases l with
  | nil => rfl
  | cons x xs =>
    have hx : pySpace x = false := lstrip_head_not_space h
    rw [List.takeWhile_cons]
    by_cases hp : p x = true
    · rw [if_pos hp]
      exact lstrip_cons_clean hx _
    · rw [if_neg hp]
      rfl

theorem parse_tag_shape (seg : List Char) (hseg : '@' ∉ seg) :
    '@' ∉ (parse_tag seg).1 ∧ '(' ∉ (parse_tag seg).1 ∧
    lstripP (parse_tag seg).1 = (parse_tag seg).1 ∧
    ∀ v', (parse_tag seg).2 = some v' → ('@' ∉ v' ∧ '(' ∉ v') := by
  have hs : '@' ∉ strip seg := fun hc => hseg (mem_strip hc)
  unfold parse_tag
  cases hps : pySplit '(' (strip seg) with
  | nil => exact absurd hps (pySplit_ne_nil _ _)
  | cons a r =>
    have hamem : a ∈ pySplit '(' (strip seg) := hps ▸ List.mem_cons_self a r
    have ha1 : '@' ∉ a := fun hc => hs (pySplit_mem_mem _ _ a hamem '@' hc)
    have ha2 : '(' ∉ a := pySplit_delim_not_mem _ _ a hamem
    have ha3 : lstripP a = a := by
      have hh := pySplit_headD '(' (strip seg)
      rw [hps] at hh
      simp only [List.headD] at hh
      rw [hh]
      exact lstrip_takeWhile _ (lstrip_strip seg)
    cases r with
    | nil => exact ⟨ha1, ha2, ha3, fun v' hv => by simp at hv⟩
    | cons b r2 =>
      cases r2 with
      | nil =>
        refine ⟨ha1, ha2, ha3, ?_⟩
        intro v' hv
        simp only [Option.some.injEq] at hv
        subst hv
        have hbmem : b ∈ pySplit '(' (strip seg) :=
          hps ▸ List.mem_cons_of_mem a (List.mem_cons_self b [])
        constructor
        · intro hc
          exact hs (pySplit_mem_mem _ _ b hbmem '@'
            (List.Sublist.mem hc (List.dropLast_sublist b)))
        · intro hc
          exact pySplit_delim_not_mem _ _ b hbmem
            (List.Sublist.mem hc (List.dropLast_sublist b))
      | cons c r3 => exact ⟨ha1, ha2, ha3, fun v' hv => by simp at hv⟩

theorem dictInsert_ne_nil (d : List (List Char × Option (List Char)))
    (k : List Char) (v : Option (List Char)) : dictInsert d k v ≠ [] := by
  cases d with
  | nil => simp [dictInsert]
  | cons kv rest =>
    obtain ⟨k', v'⟩ := kv
    simp only [dictInsert]
    split <;> simp

theorem dictInsert_mem {d : List (List Char × Option (List Char))} {k : List Char}
    {v : Option (List Char)} :
    ∀ pr ∈ dictInsert d k v, pr = (k, v) ∨ pr ∈ d := by
  induction d with
  | nil =>
    intro pr hpr
    simp [dictInsert] at hpr
    exact Or.inl hpr
  | cons kv rest ih =>
    intro pr hpr
    obtain ⟨k', v'⟩ := kv
    simp only [dictInsert] at hpr
    by_cases he : k' = k
    · rw [if_pos he] at hpr
      rcases List.mem_cons.mp hpr with h | h
      · exact Or.inl h
      · exact Or.inr (List.mem_cons_of_mem _ h)
    · rw [if_neg he] at hpr
      rcases List.mem_cons.mp hpr with h | h
      · exact Or.inr (h ▸ List.mem_cons_self _ _)
      · rcases ih pr h with h2 | h2
        · exact Or.inl h2
        · exact Or.inr (List.mem_cons_of_mem _ h2)

theorem dictInsert_keys {d : List (List Char × Option (List Char))} {k : List Char}
    {v : Option (List Char)} :
    ∀ k' ∈ (dictInsert d k v).map Prod.fst, k' = k ∨ k' ∈ d.map Prod.fst := by
  intro k' hk'
  rcases List.mem_map.mp hk' with ⟨pr, hpr, he⟩
  rcases dictInsert_mem pr hpr with h | h
  · left
    rw [← he, h]
  · right
    exact List.mem_map.mpr ⟨pr, h, he⟩

theorem dictInsert_keys_nodup {d : List (List Char × Option (List Char))}
    {k : List Char} {v : Option (List Char)} (h : (d.map Prod.fst).Nodup) :
    ((dictInsert d k v).map Prod.fst).Nodup := by
  induction d with
  | nil => simp [dictInsert]
  | cons kv rest ih =>
    obtain ⟨k', v'⟩ := kv
    simp only [dictInsert]
    by_cases he : k' = k
    · rw [if_pos he]
      simp only [List.map_cons, List.nodup_cons] at h ⊢
      obtain ⟨h1, h2⟩ := h
      subst he
      exact ⟨h1, h2⟩
    · rw [if_neg he]
      simp only [List.map_cons, List.nodup_cons] at h ⊢
      obtain ⟨h1, h2⟩ := h
      refine ⟨?_, ih h2⟩
      intro hc
      rcases dictInsert_keys k' hc with h3 | h3
      · exact he h3
      · exact h1 h3

theorem dictInsert_fresh {d : List (List Char × Option (List Char))} {k : List Char}
    {v : Option (List Char)} (h : k ∉ d.map Prod.fst) :
    dictInsert d k v = d ++ [(k, v)] := by
  induction d with
  | nil => rfl
  | cons kv rest ih =>
    obtain ⟨k', v'⟩ := kv
    simp only [List.map_cons, List.mem_cons, not_or] at h
    obtain ⟨h1, h2⟩ := h
    simp only [dictInsert]
    rw [if_neg (fun he => h1 he.symm), ih h2]
    rfl

theorem parse_tags_mem : ∀ (segs : List (List Char))
    (acc : List (List Char × Option (List Char))) (pr : List Char × Option (List Char)),
    pr ∈ segs.foldl (fun d s => dictInsert d (parse_tag s).1 (parse_tag s).2) acc →
    pr ∈ acc ∨ ∃ s ∈ segs, pr = parse_tag s := by
  intro segs
  induction segs with
  | nil =>
    intro acc pr hpr
    exact Or.inl hpr
  | cons s rest ih =>
    intro acc pr hpr
    simp only [List.foldl_cons] at hpr
    rcases ih _ pr hpr with h | h
    · rcases dictInsert_mem pr h with h2 | h2
      · exact Or.inr ⟨s, List.mem_cons_self _ _, h2⟩
      · exact Or.inl h2
    · obtain ⟨s', hs', he⟩ := h
      exact Or.inr ⟨s', List.mem_cons_of_mem _ hs', he⟩

theorem parse_tags_mem' {segs : List (List Char)} {pr : List Char × Option (List Char)}
    (h : pr ∈ parse_tags segs) : ∃ s ∈ segs, pr = parse_tag s := by
  rcases parse_tags_mem segs [] pr h with h2 | h2
  · simp at h2
  · exact h2

theorem parse_tags_keys_nodup : ∀ (segs : List (List Char))
    (acc : List (List Char × Option (List Char))),
    (acc.map Prod.fst).Nodup →
    ((segs.foldl (fun d s => dictInsert d (parse_tag s).1 (parse_tag s).2) acc).map
      Prod.fst).Nodup := by
  intro segs
  induction segs with
  | nil => intro acc h; exact h
  | cons s rest ih =>
    intro acc h
    simp only [List.foldl_cons]
    exact ih _ (dictInsert_keys_nodup h)

theorem parse_tags_ne_nil : ∀ (segs : List (List Char))
    (acc : List (List Char × Option (List Char))), acc ≠ [] →
    segs.foldl (fun d s => dictInsert d (parse_tag s).1 (parse_tag s).2) acc ≠ [] := by
  intro segs
  induction segs with
  | nil => intro acc h; exact h
  | cons s rest ih =>
    intro acc _
    simp only [List.foldl_cons]
    exact ih _ (dictInsert_ne_nil _ _ _)

theorem parse_tags_nonempty {segs : List (List Char)} (h : segs ≠ []) :
    parse_tags segs ≠ [] := by
  cases segs with
  | nil => exact absurd rfl h
  | cons s rest =>
    unfold parse_tags
    simp only [List.foldl_cons]
    exact parse_tags_ne_nil rest _ (dictInsert_ne_nil _ _ _)

theorem foldl_dictInsert_eta : ∀ (prs acc : List (List Char × Option (List Char))),
    ((acc ++ prs).map Prod.fst).Nodup →
    prs.foldl (fun d pr => dictInsert d pr.1 pr.2) acc = acc ++ prs := by
  intro prs
  induction prs with
  | nil =>
    intro acc _
    simp
  | cons pr rest ih =>
    intro acc hnd
    simp only [List.foldl_cons]
    have hfresh : pr.1 ∉ acc.map Prod.fst := by
      rw [List.map_append, List.nodup_append] at hnd
      intro hc
      exact hnd.2.2 hc (List.mem_map.mpr ⟨pr, List.mem_cons_self _ _, rfl⟩)
    rw [dictInsert_fresh hfresh]
    have hstep := ih (acc ++ [pr]) (by simpa using hnd)
    simpa using hstep

theorem parse_tags_map (segs : List (List Char)) :
    parse_tags segs =
      (segs.map parse_tag).foldl (fun d pr => dictInsert d pr.1 pr.2) [] := by
  unfold parse_tags
  rw [List.foldl_map]

theorem startsDash_shape {l : List Char} (h : startsDash l = true) :
    ∃ rest, l = '-' :: ' ' :: rest := by
  unfold startsDash at h
  split at h
  · rename_i rest
    exact ⟨rest, rfl⟩
  · simp at h

theorem mk_node_task_fields {line : List Char} {nd : NodeData}
    (h : mk_node line = some nd) (hk : nd.kind = NodeKind.task) :
    startsDash (strip line) = true ∧
    nd.name = strip (((pySplit '@' (strip line)).headD []).drop 2) ∧
    nd.taskTags = parse_tags (pySplit '@' (strip line)).tail := by
  simp only [mk_node] at h
  split at h
  · rename_i hcond
    rw [Option.some.injEq] at h
    subst h
    refine ⟨hcond, ?_, ?_⟩ <;> rw [strip_idem]
  · split at h
    · rw [Option.some.injEq] at h
      subst h
      simp at hk
    · split at h
      · rw [Option.some.injEq] at h
        subst h
        simp at hk
      · exact absurd h (by simp)

theorem mk_node_task_shape {line : List Char} {nd : NodeData}
    (h : mk_node line = some nd) (hk : nd.kind = NodeKind.task) :
    (∀ pr ∈ nd.taskTags, '@' ∉ pr.1 ∧ '(' ∉ pr.1 ∧ lstripP pr.1 = pr.1 ∧
      ∀ v', pr.2 = some v' → ('@' ∉ v' ∧ '(' ∉ v')) ∧
    (nd.taskTags.map Prod.fst).Nodup ∧
    '@' ∉ nd.name ∧ lstripP nd.name = nd.name ∧ rstripP nd.name = nd.name := by
  obtain ⟨hsd, hname, htags⟩ := mk_node_task_fields h hk
  refine ⟨?_, ?_, ?_, ?_, ?_⟩
  · intro pr hpr
    rw [htags] at hpr
    obtain ⟨s, hs, he⟩ := parse_tags_mem' hpr
    have hst : s ∈ pySplit '@' (strip line) :=
      List.Sublist.mem hs (List.tail_sublist _)
    have hseg : '@' ∉ s := pySplit_delim_not_mem '@' (strip line) s hst
    rw [he]
    exact parse_tag_shape s hseg
  · rw [htags]
    unfold parse_tags
    exact parse_tags_keys_nodup _ [] (by simp)
  · rw [hname]
    intro hc
    have h1 := mem_strip hc
    have h2 : '@' ∈ (pySplit '@' (strip line)).headD [] :=
      List.Sublist.mem h1 (List.drop_sublist 2 _)
    cases hps : pySplit '@' (strip line) with
    | nil => exact absurd hps (pySplit_ne_nil _ _)
    | cons a r =>
      rw [hps] at h2
      simp only [List.headD] at h2
      exact pySplit_delim_not_mem '@' (strip line) a
        (hps ▸ List.mem_cons_self a r) h2
  · rw [hname]
    exact lstrip_strip _
  · rw [hname]
    exact rstrip_strip _

theorem mk_node_task_nonempty {line : List Char} {nd : NodeData}
    (h : mk_node line = some nd) (hk : nd.kind = NodeKind.task)
    (htg : nd.taskTags = []) : nd.name ≠ [] := by
  obtain ⟨hsd, hname, htags⟩ := mk_node_task_fields h hk
  obtain ⟨rest, hrest⟩ := startsDash_shape hsd
  have htail : (pySplit '@' (strip line)).tail = [] := by
    by_contra hcon
    exact parse_tags_nonempty hcon (htags ▸ htg)
  have htok : pySplit '@' (strip line) = [strip line] := by
    cases hps : pySplit '@' (strip line) with
    | nil => exact absurd hps (pySplit_ne_nil _ _)
    | cons a r =>
      have hr : r = [] := by
        rw [hps] at htail
        exact htail
      subst hr
      have hl := pySplit_length '@' (strip line)
      rw [hps] at hl
      simp only [List.length_cons, List.length_nil] at hl
      have hcz : (strip line).count '@' = 0 := by omega
      have hnm : '@' ∉ strip line := List.count_eq_zero.mp hcz
      rw [← hps]
      exact pySplit_of_not_mem hnm
  rw [htok] at hname
  simp only [List.headD] at hname
  rw [hrest] at hname
  simp only [List.drop_succ_cons, List.drop_zero] at hname
  intro hcon
  rw [hcon] at hname
  have hall : ∀ c ∈ rest, pySpace c = true := all_space_of_strip_eq_nil hname.symm
  have hclean : rstripP (strip line) = strip line := rstrip_strip line
  cases hr2 : rest.reverse with
  | nil =>
    rw [List.reverse_eq_nil_iff] at hr2
    subst hr2
    rw [hrest] at hclean
    exact absurd hclean (by decide)
  | cons c m =>
    have hcrest : c ∈ rest := by
      rw [← List.mem_reverse, hr2]
      exact List.mem_cons_self _ _
    have hcs : pySpace c = true := hall c hcrest
    have hform : strip line = ('-' :: ' ' :: m.reverse) ++ [c] := by
      rw [hrest]
      have hre : rest = m.reverse ++ [c] := by
        rw [← List.reverse_reverse rest, hr2]
        simp
      rw [hre]
      simp
    rw [hform] at hclean
    unfold rstripP at hclean
    rw [List.reverse_append] at hclean
    simp only [List.reverse_cons, List.reverse_nil, List.nil_append,
      List.singleton_append] at hclean
    rw [List.dropWhile_cons, if_pos hcs] at hclean
    have hlen := congrArg List.length hclean
    rw [List.length_reverse, List.length_append] at hlen
    have hle : (List.dropWhile pySpace (m.reverse.reverse ++ [' '] ++ ['-'])).length ≤
        (m.reverse.reverse ++ [' '] ++ ['-']).length :=
      (List.dropWhile_sublist pySpace).length_le
    simp only [List.length_append, List.length_reverse, List.length_cons,
      List.length_nil] at hle
    simp only [List.length_cons, List.length_nil, List.length_reverse] at hlen
    omega

/-- The body of a rendered tag: everything after its `@`. -/
def renderTagBody (pr : List Char × Option (List Char)) : List Char :=
  match pr.2 with
  | some v => if v = [] then pr.1 else pr.1 ++ '(' :: (v ++ [')'])
  | none => pr.1

theorem renderTag_eq (pr : List Char × Option (List Char)) :
    renderTag pr = '@' :: renderTagBody pr := by
  unfold renderTag renderTagBody
  cases hpv : pr.2 with
  | none => rfl
  | some v =>
    dsimp only
    by_cases hv : v = []
    · simp [hv]
    · rw [if_neg hv, if_neg hv]

/-- The `@`-segments the rendered tag block splits back into. -/
def segsOf : List (List Char × Option (List Char)) → List (List Char)
  | [] => []
  | [pr] => [renderTagBody pr]
  | pr :: rest => (renderTagBody pr ++ [' ']) :: segsOf rest

theorem renderTagBody_no_at {pr : List Char × Option (List Char)} (h1 : '@' ∉ pr.1)
    (h2 : ∀ v', pr.2 = some v' → '@' ∉ v') : '@' ∉ renderTagBody pr := by
  unfold renderTagBody
  cases hv : pr.2 with
  | none => exact h1
  | some v =>
    dsimp only
    by_cases hve : v = []
    · rw [if_pos hve]
      exact h1
    · rw [if_neg hve]
      intro hc
      rcases List.mem_append.mp hc with hcc | hcc
      · exact h1 hcc
      · rcases List.mem_cons.mp hcc with hcc | hcc
        · exact absurd hcc (by decide)
        · rcases List.mem_append.mp hcc with hcc | hcc
          · exact h2 v hv hcc
          · rcases List.mem_cons.mp hcc with hcc | hcc
            · exact absurd hcc (by decide)
            · exact absurd hcc (List.not_mem_nil _)

theorem pySplit_joinSp : ∀ (tags : List (List Char × Option (List Char))),
    tags ≠ [] →
    (∀ pr ∈ tags, '@' ∉ pr.1 ∧ ∀ v', pr.2 = some v' → '@' ∉ v') →
    pySplit '@' (joinSp (tags.map renderTag)) = [] :: segsOf tags := by
  intro tags
  induction tags with
  | nil =>
    intro h _
    exact absurd rfl h
  | cons pr rest ih =>
    intro _ hgood
    cases rest with
    | nil =>
      simp only [List.map_cons, List.map_nil, joinSp]
      rw [renderTag_eq, pySplit_cons_self]
      have hb : '@' ∉ renderTagBody pr :=
        renderTagBody_no_at (hgood pr (List.mem_cons_self _ _)).1
          (hgood pr (List.mem_cons_self _ _)).2
      rw [pySplit_of_not_mem hb]
      rfl
    | cons pr2 rest2 =>
      simp only [List.map_cons, joinSp]
      rw [renderTag_eq]
      rw [show ('@' :: renderTagBody pr) ++
          ' ' :: joinSp (renderTag pr2 :: List.map renderTag rest2) =
          '@' :: (renderTagBody pr ++
            ' ' :: joinSp (renderTag pr2 :: List.map renderTag rest2)) from rfl]
      rw [pySplit_cons_self]
      rw [show renderTagBody pr ++
          ' ' :: joinSp (renderTag pr2 :: List.map renderTag rest2) =
          (renderTagBody pr ++ [' ']) ++
            joinSp (renderTag pr2 :: List.map renderTag rest2) by simp]
      have hb : '@' ∉ renderTagBody pr ++ [' '] := by
        intro hc
        rcases List.mem_append.mp hc with hcc | hcc
        · exact renderTagBody_no_at (hgood pr (List.mem_cons_self _ _)).1
            (hgood pr (List.mem_cons_self _ _)).2 hcc
        · rcases List.mem_cons.mp hcc with hcc | hcc
          · exact absurd hcc (by decide)
          · exact absurd hcc (List.not_mem_nil _)
      rw [pySplit_append _ hb]
      have hih := ih (by simp) (fun q hq => hgood q (List.mem_cons_of_mem _ hq))
      simp only [List.map_cons] at hih
      rw [hih]
      simp [segsOf]

theorem joinSp_render_concat : ∀ (tags : List (List Char × Option (List Char))),
    tags ≠ [] →
    (∀ pr ∈ tags, (pr.2 = none → rstripP pr.1 = pr.1) ∧
      ∀ v', pr.2 = some v' → v' ≠ []) →
    ∃ m ch, joinSp (tags.map renderTag) = m ++ [ch] ∧ pySpace ch = false := by
  intro tags
  induction tags with
  | nil =>
    intro h _
    exact absurd rfl h
  | cons pr rest ih =>
    intro _ hgood
    cases rest with
    | nil =>
      simp only [List.map_cons, List.map_nil, joinSp]
      obtain ⟨hn, hv⟩ := hgood pr (List.mem_cons_self _ _)
      unfold renderTag
      cases hpv : pr.2 with
      | none =>
        dsimp only
        have hcl := hn hpv
        by_cases hke : pr.1 = []
        · exact ⟨[], '@', by simp [hke], by decide⟩
        · obtain ⟨m, c2, hmc, hc2⟩ := exists_concat_clean hcl hke
          exact ⟨'@' :: m, c2, by rw [hmc]; rfl, hc2⟩
      | some v =>
        dsimp only
        have hvne : v ≠ [] := hv v hpv
        rw [if_neg hvne]
        exact ⟨'@' :: (pr.1 ++ '(' :: v), ')', by simp, by decide⟩
    | cons pr2 rest2 =>
      simp only [List.map_cons, joinSp]
      obtain ⟨m, ch, hm, hch⟩ :=
        ih (by simp) (fun q hq => hgood q (List.mem_cons_of_mem _ hq))
      refine ⟨renderTag pr ++ ' ' :: m, ch, ?_, hch⟩
      simp only [List.map_cons] at hm
      rw [hm]
      simp

theorem strip_pad {k pad : List Char} (h1 : lstripP k = k) (h2 : rstripP k = k)
    (hp : ∀ c ∈ pad, pySpace c = true) : strip (k ++ pad) = k := by
  cases k with
  | nil =>
    simp only [List.nil_append]
    unfold strip lstripP
    rw [List.dropWhile_eq_nil_iff.mpr hp]
    rfl
  | cons x xs =>
    unfold strip
    rw [show (x :: xs) ++ pad = x :: (xs ++ pad) from rfl,
      lstrip_cons_clean (lstrip_head_not_space h1)]
    rw [show x :: (xs ++ pad) = (x :: xs) ++ pad from rfl,
      rstrip_append_spaces hp, h2]

theorem parse_tag_renderTagBody {pr : List Char × Option (List Char)}
    (hg : goodPr pr) (pad : List Char) (hpad : ∀ c ∈ pad, pySpace c = true) :
    parse_tag (renderTagBody pr ++ pad) = pr := by
  obtain ⟨k, v⟩ := pr
  obtain ⟨g1, g2, g3, g4, g5⟩ := hg
  cases v with
  | none =>
    have hr : rstripP k = k := g4 rfl
    unfold parse_tag renderTagBody
    dsimp only
    rw [strip_pad g3 hr hpad, pySplit_of_not_mem g2]
  | some v' =>
    obtain ⟨hvne, hvat, hvp⟩ := g5 v' rfl
    unfold parse_tag renderTagBody
    dsimp only
    rw [if_neg hvne]
    have hlk : lstripP (k ++ '(' :: (v' ++ [')'])) = k ++ '(' :: (v' ++ [')']) := by
      cases k with
      | nil =>
        simp only [List.nil_append]
        exact lstrip_cons_clean (by decide) _
      | cons x xs =>
        rw [show (x :: xs) ++ '(' :: (v' ++ [')']) =
          x :: (xs ++ '(' :: (v' ++ [')'])) from rfl]
        exact lstrip_cons_clean (lstrip_head_not_space g3) _
    have hrk : rstripP (k ++ '(' :: (v' ++ [')'])) = k ++ '(' :: (v' ++ [')']) := by
      rw [show k ++ '(' :: (v' ++ [')']) = (k ++ '(' :: v') ++ [')'] by simp]
      exact rstrip_concat_clean (by decide) _
    have hstr : strip ((k ++ '(' :: (v' ++ [')'])) ++ pad) =
        k ++ '(' :: (v' ++ [')']) := strip_pad hlk hrk hpad
    rw [hstr]
    have hnv : '(' ∉ v' ++ [')'] := by
      intro hc
      rcases List.mem_append.mp hc with hcc | hcc
      · exact hvp hcc
      · rcases List.mem_cons.mp hcc with hcc | hcc
        · exact absurd hcc (by decide)
        · exact absurd hcc (List.not_mem_nil _)
    rw [pySplit_append _ g2, pySplit_cons_self, pySplit_of_not_mem hnv]
    simp only [List.headD, List.tail, List.append_nil]
    rw [List.dropLast_concat]

theorem segsOf_reparse : ∀ (tags : List (List Char × Option (List Char))),
    (∀ pr ∈ tags, goodPr pr) → (segsOf tags).map parse_tag = tags := by
  intro tags
  induction tags with
  | nil => intro _; rfl
  | cons pr rest ih =>
    intro hgood
    cases rest with
    | nil =>
      simp only [segsOf, List.map_cons, List.map_nil]
      have := parse_tag_renderTagBody (hgood pr (List.mem_cons_self _ _)) []
        (by intro c hc; exact absurd hc (List.not_mem_nil _))
      rw [List.append_nil] at this
      rw [this]
    | cons pr2 rest2 =>
      simp only [segsOf, List.map_cons]
      rw [parse_tag_renderTagBody (hgood pr (List.mem_cons_self _ _)) [' ']
        (by intro c hc; rcases List.mem_cons.mp hc with hc | hc
            · rw [hc]; rfl
            · exact absurd hc (List.not_mem_nil _))]
      have hih := ih (fun q hq => hgood q (List.mem_cons_of_mem _ hq))
      simp only [segsOf, List.map_cons] at hih
      rw [hih]

/-- Claim C4 counterexample: an empty tag value and a space-padded
valueless tag name both break the round trip.  `"- T @a()"` parses with
tag value `""`, re-renders as `"- T @a"` and re-parses with the value
absent; `"- T @a (b(c)"` parses with tag name `"a "` (trailing space, no
value), re-renders as `"- T @a "` and re-parses with name `"a"`. -/
theorem claim_C4_counterexample :
    ((mk_node ['-', ' ', 'T', ' ', '@', 'a', '(', ')']).map NodeData.taskTags =
      some [(['a'], some [])])
    ∧ ((mk_node ['-', ' ', 'T', ' ', '@', 'a', '(', ')']).map
        (fun nd => (mk_node (renderNode nd)).map NodeData.taskTags) =
      some (some [(['a'], none)]))
    ∧ (some (some ([] : List Char)) ≠
        (some none : Option (Option (List Char))))
    ∧ ((mk_node ['-', ' ', 'T', ' ', '@', 'a', ' ', '(', 'b', '(', 'c', ')']).map
        NodeData.taskTags = some [(['a', ' '], none)])
    ∧ ((mk_node ['-', ' ', 'T', ' ', '@', 'a', ' ', '(', 'b', '(', 'c', ')']).map
        (fun nd => (mk_node (renderNode nd)).map NodeData.taskTags) =
      some (some [(['a'], none)]))
    ∧ (tagLookup [(['a', ' '], (none : Option (List Char)))] ['a', ' '] ≠
        tagLookup [(['a'], (none : Option (List Char)))] ['a', ' ']) :=
  ⟨rfl, rfl, by decide, rfl, rfl, by decide⟩

/-- Claim C4 (amended): for every task line whose parsed tags have no
empty-string value and whose valueless tags have names without trailing
whitespace, re-parsing the rendered line yields a task with exactly the
same tag mapping.  (A tag with empty value re-renders as a bare `@name`
and re-parses as valueless; a valueless tag name's trailing whitespace is
stripped on re-parse — the two failure modes of the counterexample.) -/
theorem claim_C4_tag_roundtrip (line : List Char) (nd : NodeData)
    (h : mk_node line = some nd) (hk : nd.kind = NodeKind.task)
    (hno : ∀ pr ∈ nd.taskTags, pr.2 ≠ some [] ∧ (pr.2 = none → rstripP pr.1 = pr.1)) :
    ∃ nd', mk_node (renderNode nd) = some nd' ∧ nd'.kind = NodeKind.task ∧
      nd'.taskTags = nd.taskTags ∧
      (∀ k, tagLookup nd'.taskTags k = tagLookup nd.taskTags k) := by
  obtain ⟨hshape, hnodup, hnameat, hnamel, hnamer⟩ := mk_node_task_shape h hk
  have hgood : ∀ pr ∈ nd.taskTags, goodPr pr := by
    intro pr hpr
    obtain ⟨g1, g2, g3, g4⟩ := hshape pr hpr
    obtain ⟨n1, n2⟩ := hno pr hpr
    exact ⟨g1, g2, g3, n2,
      fun v' hv => ⟨fun hve => n1 (hve ▸ hv), (g4 v' hv).1, (g4 v' hv).2⟩⟩
  have hrender : renderNode nd = tabRep nd.tabs ++
      ('-' :: ' ' :: (nd.name ++ ' ' :: joinSp (nd.taskTags.map renderTag))) := by
    unfold renderNode
    rw [hk]
    simp
  have hdashname : '@' ∉ '-' :: ' ' :: nd.name := by
    intro hc
    rcases List.mem_cons.mp hc with hc | hc
    · exact absurd hc (by decide)
    · rcases List.mem_cons.mp hc with hc | hc
      · exact absurd hc (by decide)
      · exact hnameat hc
  by_cases hte : nd.taskTags = []
  · have hname_ne : nd.name ≠ [] := mk_node_task_nonempty h hk hte
    obtain ⟨mn, cn, hmn, hcn⟩ := exists_concat_clean hnamer hname_ne
    have hlcore : lstripP ('-' :: ' ' :: nd.name) = '-' :: ' ' :: nd.name :=
      lstrip_cons_clean (by decide) _
    have hrcore : rstripP ('-' :: ' ' :: nd.name) = '-' :: ' ' :: nd.name := by
      rw [hmn, show '-' :: ' ' :: (mn ++ [cn]) = ('-' :: ' ' :: mn) ++ [cn] by simp]
      exact rstrip_concat_clean hcn _
    have hstrip : strip (renderNode nd) = '-' :: ' ' :: nd.name := by
      rw [hrender, hte]
      simp only [List.map_nil, joinSp]
      rw [show '-' :: ' ' :: (nd.name ++ ' ' :: []) =
        ('-' :: ' ' :: nd.name) ++ [' '] by simp]
      unfold strip
      rw [lstrip_tabRep]
      rw [show lstripP (('-' :: ' ' :: nd.name) ++ [' ']) =
        ('-' :: ' ' :: nd.name) ++ [' '] from lstrip_cons_clean (by decide) _]
      rw [rstrip_append_spaces (by intro c hc
                                   rcases List.mem_cons.mp hc with hc | hc
                                   · rw [hc]; rfl
                                   · exact absurd hc (List.not_mem_nil _)) _]
      exact hrcore
    refine ⟨⟨NodeKind.task, countTabs (renderNode nd), '-' :: ' ' :: nd.name,
      nd.name, [], []⟩, ?_, rfl, by rw [hte], by intro k; rw [hte]⟩
    simp only [mk_node, hstrip]
    rw [if_pos (by rfl : startsDash ('-' :: ' ' :: nd.name) = true)]
    rw [strip_clean hlcore hrcore, pySplit_of_not_mem hdashname]
    simp only [List.headD, List.tail, List.drop_succ_cons, List.drop_zero,
      Option.some.injEq]
    rw [strip_clean hnamel hnamer]
    rfl
  · have hgood2 : ∀ pr ∈ nd.taskTags, '@' ∉ pr.1 ∧
        ∀ v', pr.2 = some v' → '@' ∉ v' := by
      intro pr hpr
      obtain ⟨g1, _, _, _, g5⟩ := hgood pr hpr
      exact ⟨g1, fun v' hv => (g5 v' hv).2.1⟩
    have hgood3 : ∀ pr ∈ nd.taskTags, (pr.2 = none → rstripP pr.1 = pr.1) ∧
        ∀ v', pr.2 = some v' → v' ≠ [] := by
      intro pr hpr
      obtain ⟨_, _, _, g4, g5⟩ := hgood pr hpr
      exact ⟨g4, fun v' hv => (g5 v' hv).1⟩
    obtain ⟨mB, cB, hmB, hcB⟩ := joinSp_render_concat nd.taskTags hte hgood3
    have hsplitB := pySplit_joinSp nd.taskTags hte hgood2
    have hlcore : lstripP ('-' :: ' ' ::
        (nd.name ++ ' ' :: joinSp (nd.taskTags.map renderTag))) =
        '-' :: ' ' :: (nd.name ++ ' ' :: joinSp (nd.taskTags.map renderTag)) :=
      lstrip_cons_clean (by decide) _
    have hrcore : rstripP ('-' :: ' ' ::
        (nd.name ++ ' ' :: joinSp (nd.taskTags.map renderTag))) =
        '-' :: ' ' :: (nd.name ++ ' ' :: joinSp (nd.taskTags.map renderTag)) := by
      rw [hmB, show '-' :: ' ' :: (nd.name ++ ' ' :: (mB ++ [cB])) =
        ('-' :: ' ' :: (nd.name ++ ' ' :: mB)) ++ [cB] by simp]
      exact rstrip_concat_clean hcB _
    have hstrip : strip (renderNode nd) =
        '-' :: ' ' :: (nd.name ++ ' ' :: joinSp (nd.taskTags.map renderTag)) := by
      rw [hrender]
      exact strip_tabRep_clean _ hlcore hrcore
    have hpre_no : '@' ∉ ('-' :: ' ' :: nd.name) ++ [' '] := by
      intro hc
      rcases List.mem_append.mp hc with hc | hc
      · exact hdashname hc
      · rcases List.mem_cons.mp hc with hc | hc
        · exact absurd hc (by decide)
        · exact absurd hc (List.not_mem_nil _)
    have htok : pySplit '@' ('-' :: ' ' ::
        (nd.name ++ ' ' :: joinSp (nd.taskTags.map renderTag))) =
        (('-' :: ' ' :: nd.name) ++ [' ']) :: segsOf nd.taskTags := by
      rw [show '-' :: ' ' :: (nd.name ++ ' ' :: joinSp (nd.taskTags.map renderTag)) =
        (('-' :: ' ' :: nd.name) ++ [' ']) ++ joinSp (nd.taskTags.map renderTag)
        by simp]
      rw [pySplit_append _ hpre_no, hsplitB]
      simp
    have htags' : parse_tags (segsOf nd.taskTags) = nd.taskTags := by
      rw [parse_tags_map, segsOf_reparse _ hgood]
      have := foldl_dictInsert_eta nd.taskTags [] (by simpa using hnodup)
      simpa using this
    refine ⟨⟨NodeKind.task, countTabs (renderNode nd),
      '-' :: ' ' :: (nd.name ++ ' ' :: joinSp (nd.taskTags.map renderTag)),
      nd.name, nd.taskTags, []⟩, ?_, rfl, rfl, fun k => rfl⟩
    simp only [mk_node, hstrip]
    rw [if_pos (by rfl : startsDash ('-' :: ' ' ::
      (nd.name ++ ' ' :: joinSp (nd.taskTags.map renderTag))) = true)]
    rw [strip_clean hlcore hrcore, htok]
    simp only [List.headD, List.tail, Option.some.injEq]
    rw [show (('-' :: ' ' :: nd.name) ++ [' ']).drop 2 = nd.name ++ [' '] by simp]
    rw [strip_pad hnamel hnamer (by intro c hc
                                    rcases List.mem_cons.mp hc with hc | hc
                                    · rw [hc]; rfl
                                    · exact absurd hc (List.not_mem_nil _))]
    rw [htags']

/-- Witness for C4 (amended): the doctest-style line `"- T @t @v(1)"`
round-trips its tag mapping. -/
theorem claim_C4_tag_roundtrip_witness :
    ∃ nd', mk_node (renderNode ⟨NodeKind.task, 0,
      ['-', ' ', 'T', ' ', '@', 't', ' ', '@', 'v', '(', '1', ')'], ['T'],
      [(['t'], none), (['v'], some ['1'])], []⟩) = some nd' ∧
      nd'.kind = NodeKind.task ∧
      nd'.taskTags = [(['t'], none), (['v'], some ['1'])] ∧
      (∀ k, tagLookup nd'.taskTags k =
        tagLookup [(['t'], none), (['v'], some ['1'])] k) :=
  claim_C4_tag_roundtrip
    ['-', ' ', 'T', ' ', '@', 't', ' ', '@', 'v', '(', '1', ')']
    _ rfl rfl (by decide)
